import Mathlib

/-!
A verification development for the `filetree` package of the dive
repository (src/filetree/tree.go): a path-indexed file tree with
union-mount stacking, diff comparison and ASCII rendering.

Modelling conventions.

* Go's in-place pointer mutation becomes explicit state passing: every
  operation that mutates a `FileTree` returns the updated tree.
* A node's `Children` field is a Go `map[string]*FileNode` keyed by the
  child's own `Name`.  Go maps are unordered and the source sorts the key
  list (`sort.Strings`) at every iteration, so the map is modelled as an
  association list kept sorted by name: `insertChild` inserts in order and
  each source-level sort of the keys is then the identity.
* The node-level file (`node.go`: `FileNode`'s methods and the `FileInfo`,
  `DiffType`, `ViewInfo` types) is not part of the repository snapshot;
  definitions taken from its spec are marked `Modelled from the spec:`.
* Go errors are strings, as produced by `fmt.Errorf` in the source.
* A node's `Parent` back-reference has no counterpart in a value model;
  traversals instead carry the list of ancestor names explicitly, which is
  exactly the information `FileNode.Path()` reads off the parent chain.
-/

/-! ## Constants (tree.go lines 11-21) -/

def newLine : String := "\n"

def noBranchSpace : String := "    "

def branchSpace : String := "│   "

def middleItem : String := "├─"

def lastItem : String := "└─"

def whiteoutPrefix : String := ".wh."

def doubleWhiteoutPrefix : String := ".wh..wh.."

def uncollapsedItem : String := "─ "

def collapsedItem : String := "⊕ "

/-! ## Data model -/

/-- Modelled from the spec: the `FileInfo` payload supplied by the external
layer-extraction collaborator: `FileInfo{Name, Size uint64, Mode, IsDir,
(content-identity hint)}`.  `hash` is the content-identity hint; machine
integers are modelled as `Nat` (no claim exercises overflow). -/
structure FileInfo where
  name : String := ""
  size : Nat := 0
  mode : Nat := 0
  isDir : Bool := false
  hash : Nat := 0
deriving DecidableEq, Repr

/-- Modelled from the spec: the diff classification enum
`Unmodified | Modified | Added | Removed` plus the transient unset
sentinel a node carries before its first classification. -/
inductive DiffType where
  | Unset
  | Unmodified
  | Added
  | Modified
  | Removed
deriving DecidableEq, Repr

/-- Modelled from the spec: severity rank for the escalation rule of
section 4.3, precedence `Removed > Modified > Added > Unmodified`, with
the unset sentinel below everything. -/
def DiffType.severity : DiffType → Nat
  | .Unset => 0
  | .Unmodified => 1
  | .Added => 2
  | .Modified => 3
  | .Removed => 4

/-- Modelled from the spec: `combine(a, b) = max-by-severity(a, b)`
(design note of section 9, the escalation rule of section 4.3). -/
def DiffType.combine (a b : DiffType) : DiffType :=
  if b.severity ≤ a.severity then a else b

/-- Modelled from the spec: `ViewInfo{Collapsed bool; Hidden bool}`,
mutated only by the external UI collaborator. -/
structure ViewInfo where
  collapsed : Bool := false
  hidden : Bool := false
deriving DecidableEq, Repr

/-- Modelled from the spec: a node's `Data`, composed of the `FileInfo`
payload, the `DiffType` classification and the `ViewInfo` view state. -/
structure NodeData where
  fileInfo : FileInfo := {}
  diffType : DiffType := .Unset
  viewInfo : ViewInfo := {}
deriving DecidableEq, Repr

/-- A single path-segment entity owning its children.  The `Children` map
is the sorted association list `children` (see the header comment); a
child is keyed by its own `name`. -/
inductive FileNode where
  | mk (name : String) (data : NodeData) (children : List FileNode)

def FileNode.name : FileNode → String
  | .mk n _ _ => n

def FileNode.data : FileNode → NodeData
  | .mk _ d _ => d

def FileNode.children : FileNode → List FileNode
  | .mk _ _ cs => cs

mutual
def FileNode.decEq : (a b : FileNode) → Decidable (a = b)
  | .mk n d cs, .mk m e ds =>
    match String.decEq n m, (inferInstanceAs (DecidableEq NodeData)) d e, FileNode.decEqList cs ds with
    | isTrue h1, isTrue h2, isTrue h3 => isTrue (by rw [h1, h2, h3])
    | isFalse h1, _, _ => isFalse (by intro h; cases h; exact h1 rfl)
    | _, isFalse h2, _ => isFalse (by intro h; cases h; exact h2 rfl)
    | _, _, isFalse h3 => isFalse (by intro h; cases h; exact h3 rfl)
def FileNode.decEqList : (a b : List FileNode) → Decidable (a = b)
  | [], [] => isTrue rfl
  | [], _ :: _ => isFalse (by intro h; cases h)
  | _ :: _, [] => isFalse (by intro h; cases h)
  | a :: as, b :: bs =>
    match FileNode.decEq a b, FileNode.decEqList as bs with
    | isTrue h1, isTrue h2 => isTrue (by rw [h1, h2])
    | isFalse h1, _ => isFalse (by intro h; cases h; exact h1 rfl)
    | _, isFalse h2 => isFalse (by intro h; cases h; exact h2 rfl)
end

instance : DecidableEq FileNode := FileNode.decEq

/-- Rebuild a node with a new payload (`node.Data.FileInfo = data`). -/
def FileNode.withPayload (n : FileNode) (d : FileInfo) : FileNode :=
  .mk n.name { n.data with fileInfo := d } n.children

/-- Rebuild a node with new children. -/
def FileNode.withChildren (n : FileNode) (cs : List FileNode) : FileNode :=
  .mk n.name n.data cs

/-- Rebuild a node with a new diff classification. -/
def FileNode.withDiffType (n : FileNode) (t : DiffType) : FileNode :=
  .mk n.name { n.data with diffType := t } n.children

mutual
/-- Number of nodes in the subtree rooted at `n`, `n` included. -/
def FileNode.count : FileNode → Nat
  | .mk _ _ cs => 1 + countChildren cs
def countChildren : List FileNode → Nat
  | [] => 0
  | c :: rest => c.count + countChildren rest
end

mutual
/-- Aggregate payload byte size over the subtree (tree `FileSize`
bookkeeping of removal, section 3 of the spec). -/
def FileNode.totalFileSize : FileNode → Nat
  | .mk _ d cs => d.fileInfo.size + totalFileSizeChildren cs
def totalFileSizeChildren : List FileNode → Nat
  | [] => 0
  | c :: rest => c.totalFileSize + totalFileSizeChildren rest
end

/-- `FileTree` (tree.go lines 23-30).  The `Name` and `Id` fields (a
process-unique UUID assigned at construction) identify a tree for external
logging only; no claim concerns them and the nondeterministic UUID has no
place in a value model, so they are omitted. -/
structure FileTree where
  Root : FileNode
  Size : Nat
  FileSize : Nat
deriving DecidableEq

/-- `NewFileTree` (tree.go lines 32-41): an empty tree whose root is a
zero-value node. -/
def NewFileTree : FileTree :=
  { Root := .mk "" {} [], Size := 0, FileSize := 0 }

instance : Inhabited FileTree := ⟨NewFileTree⟩

/-! ## Path strings

`GetNode`/`AddPath` split a path with `strings.Split(strings.Trim(path,
"/"), "/")`; `FileNode.Path()` joins the chain of names with `/` and a
leading slash.  These are implemented on `List Char` for provability. -/

/-- `strings.Trim(s, "/")`: drop every leading and trailing `'/'`. -/
def trimSlashChars (cs : List Char) : List Char :=
  ((cs.dropWhile (· = '/')).reverse.dropWhile (· = '/')).reverse

/-- `strings.Split(s, "/")`: split at every `'/'`; the empty string
yields `[""]`, and `n` separators yield `n + 1` pieces. -/
def splitSlashChars : List Char → List (List Char)
  | [] => [[]]
  | c :: rest =>
    if c = '/' then [] :: splitSlashChars rest
    else
      match splitSlashChars rest with
      | [] => [[c]]
      | h :: t => (c :: h) :: t

/-- The segment list a path walk iterates:
`strings.Split(strings.Trim(path, "/"), "/")`. -/
def splitPath (path : String) : List String :=
  (splitSlashChars (trimSlashChars path.data)).map (fun cs => ⟨cs⟩)

/-- The non-empty segments of a path: the walk loops skip `""` segments,
so these are the segments that are actually followed. -/
def effSegs (path : String) : List String :=
  (splitPath path).filter (fun s => s ≠ "")

/-- `strings.Join(names, "/")` at the character level. -/
def joinChars : List (List Char) → List Char
  | [] => []
  | [s] => s
  | s :: rest => s ++ '/' :: joinChars rest

/-- `"/" + strings.Join(names, "/")`: the path string of the node whose
ancestor names (root excluded) are `anc` and whose final name is `last`. -/
def pathString (anc : List String) (last : String) : String :=
  ⟨'/' :: joinChars ((anc ++ [last]).map String.data)⟩

/-- `strings.TrimPrefix(name, whiteoutPrefix)`: remove one leading
occurrence of the whiteout prefix, if present. -/
def stripWhiteout (s : String) : String :=
  if whiteoutPrefix.data.isPrefixOf s.data then ⟨s.data.drop whiteoutPrefix.data.length⟩
  else s

/-- Modelled from the spec: `IsWhiteout()` is true iff the node's name
carries the whiteout prefix (section 4.4; `node.go` is not in the
snapshot). -/
def FileNode.IsWhiteout (n : FileNode) : Bool :=
  whiteoutPrefix.data.isPrefixOf n.name.data

/-- Modelled from the spec: `Path()` reconstructs the `/`-joined path from
the (excluded) root down to the node (sections 3 and 4.4); resolving a
whiteout marker strips the whiteout prefix from the node's own name
(section 4.2), so the shadowed real path is what `Path()` returns.
`anc` is the chain of ancestor names the traversal carries. -/
def nodePath (anc : List String) (n : FileNode) : String :=
  pathString anc (stripWhiteout n.name)

/-! ## Children-map primitives -/

/-- `node.Children[name]`: map lookup. -/
def lookupChild (cs : List FileNode) (name : String) : Option FileNode :=
  match cs with
  | [] => none
  | c :: rest => if c.name = name then some c else lookupChild rest name

/-- Strict lexicographic order on character lists by code point: the
order `sort.Strings` sorts Go strings in (byte-wise lexicographic order,
which coincides with code-point order for valid UTF-8). -/
def charsLt : List Char → List Char → Bool
  | [], [] => false
  | [], _ :: _ => true
  | _ :: _, [] => false
  | a :: as, b :: bs =>
    if a.toNat < b.toNat then true
    else if b.toNat < a.toNat then false
    else charsLt as bs

/-- `sort.Strings` order on names. -/
def nameLt (a b : String) : Bool :=
  charsLt a.data b.data

/-- Registration of a fresh child in the map, keeping the association list
sorted by name (the canonical representation of the unordered Go map). -/
def insertChild (c : FileNode) : List FileNode → List FileNode
  | [] => [c]
  | d :: rest => if nameLt c.name d.name then c :: d :: rest else d :: insertChild c rest

/-- Replace the child of the given name (write-back of an updated child
subtree, the value model of mutating through a child pointer). -/
def setChild (c : FileNode) : List FileNode → List FileNode
  | [] => []
  | d :: rest => if d.name = c.name then c :: rest else d :: setChild c rest

/-- `delete(parent.Children, name)`: detach a child from the map. -/
def removeChildNamed (name : String) : List FileNode → List FileNode
  | [] => []
  | c :: rest => if c.name = name then rest else c :: removeChildNamed name rest

/-- Modelled from the spec: a name for which `AddChild` reports a
non-recoverable structural conflict ("invalid name", section 4.4).  The
spec leaves the condition open; it is modelled as the name containing the
NUL character, which no filesystem permits in an entry name. -/
def invalidName (s : String) : Bool :=
  s.data.contains '\x00'

/-- Modelled from the spec: `AddChild(name, data)` creates a new child
node with the given name and payload, or returns a null result if a
non-recoverable structural conflict occurs (invalid name).  Registration
in the parent's map and the owning tree's `Size`/`FileSize` bookkeeping
are performed by the caller in this value model (`addLoop`). -/
def FileNode.AddChild (name : String) (data : FileInfo) : Option FileNode :=
  if invalidName name then none
  else some (.mk name { fileInfo := data } [])

/-! ## GetNode / AddPath / RemovePath (tree.go lines 192-246) -/

/-- The walk of `GetNode` (tree.go lines 193-206): follow each non-empty
segment; fail the moment a segment is absent, reporting the full
requested path. -/
def getLoop (node : FileNode) (names : List String) (orig : String) : Except String FileNode :=
  match names with
  | [] => .ok node
  | name :: rest =>
    if name = "" then getLoop node rest orig
    else
      match lookupChild node.children name with
      | none => .error ("path does not exist: " ++ orig)
      | some c => getLoop c rest orig

/-- `GetNode` (tree.go lines 192-206). -/
def FileTree.GetNode (t : FileTree) (path : String) : Except String FileNode :=
  getLoop t.Root (splitPath path) path

/-- The walk of `AddPath` (tree.go lines 209-237): find or create each
non-empty segment (`AddChild` receives an empty payload for intermediate
nodes); the payload is attached when the final element of the segment list
is processed; an `AddChild` failure returns the nil node together with the
error at once, keeping the nodes already created.  Returns the updated
subtree, the number of nodes created, the node the Go code returns
(`none` is Go's nil) and the error. -/
def addLoop (n : FileNode) (names : List String) (data : FileInfo) :
    FileNode × Nat × Option FileNode × Option String :=
  match names with
  | [] => (n, 0, some n, none)
  | name :: rest =>
    if name = "" then addLoop n rest data
    else
      match lookupChild n.children name with
      | some c =>
        let c := if rest = [] then c.withPayload data else c
        let r := addLoop c rest data
        (n.withChildren (setChild r.1 n.children), r.2)
      | none =>
        match FileNode.AddChild name {} with
        | none => (n, 0, none, some ("could not add child node '" ++ name ++ "'"))
        | some child =>
          let child := if rest = [] then child.withPayload data else child
          let r := addLoop child rest data
          (n.withChildren (insertChild r.1 n.children), r.2.1 + 1, r.2.2)

/-- `AddPath` (tree.go lines 208-237).  The terminal payload is written
directly to the node (`node.Data.FileInfo = data`), bypassing the
`FileSize` bookkeeping exactly as the source does, so `FileSize` is
unchanged (every `AddChild` call receives the empty payload). -/
def FileTree.AddPath (t : FileTree) (path : String) (data : FileInfo) :
    FileTree × Option FileNode × Option String :=
  let r := addLoop t.Root (splitPath path) data
  ({ t with Root := r.1, Size := t.Size + r.2.1 }, r.2.2)

/-- Modelled from the spec: the detachment performed by `node.Remove()`
(section 4.4, `node.go` not in the snapshot): drop the subtree at the
given (non-empty, already-resolved) segment chain from its parent's
children map. -/
def removeSegs (n : FileNode) : List String → FileNode
  | [] => n
  | [name] => n.withChildren (removeChildNamed name n.children)
  | name :: rest =>
    match lookupChild n.children name with
    | none => n
    | some c => n.withChildren (setChild (removeSegs c rest) n.children)

/-- `RemovePath` (tree.go lines 239-246): resolve the node with `GetNode`
(propagating its error), then `node.Remove()`.  Modelled from the spec:
`Remove` fails on the root (root removal is disallowed) and decrements the
owning tree's `Size`/`FileSize` bookkeeping for the entire removed
subtree (section 4.4). -/
def FileTree.RemovePath (t : FileTree) (path : String) : FileTree × Option String :=
  match t.GetNode path with
  | .error e => (t, some e)
  | .ok node =>
    match effSegs path with
    | [] => (t, some "cannot remove the root node")
    | segs =>
      ({ Root := removeSegs t.Root segs,
         Size := t.Size - node.count,
         FileSize := t.FileSize - node.totalFileSize }, none)

/-- `Copy` (tree.go lines 141-155): a deep copy of the tree.  In a value
model the deep clone of a value is the value itself; the fresh UUID and
the rebinding of every node's owning-tree pointer have no counterpart
here. -/
def FileTree.Copy (t : FileTree) : FileTree := t

/-! ## Depth-first child-first traversal (tree.go lines 157-171)

The source's `Visitor` is `func(*FileNode) error`; the three whole-tree
algorithms (`Copy` fix-up, `Stack`, `Compare`) all pass a nil
`VisitEvaluator`, so the evaluator parameter is not modelled.  A visitor
that mutates the lower tree is a state-passing function here, and it
receives the ancestor-name chain `anc` in place of the `Parent`
back-references `Path()` walks.  `VisitSignal.panicked` records a Go
runtime panic inside the visitor (nil-pointer dereference), which aborts
the traversal just as an error return does, but is not an error value. -/

inductive VisitSignal where
  | cont
  | err (msg : String)
  | panicked
deriving DecidableEq, Repr

/-- The visitor shape used by the whole-tree algorithms: state, ancestor
names of the visited node, the visited node. -/
def Visitor (σ : Type) : Type :=
  σ → List String → FileNode → σ × VisitSignal

mutual
/-- Modelled from the spec: `VisitDepthChildFirst` on one node (section
4.4, `node.go` not in the snapshot): visit all descendants before the node
itself (post-order), siblings in sorted name order (the stored order of
the sorted children list), first error aborting the traversal. -/
def visitNodeDCF {σ : Type} (f : Visitor σ) (anc : List String) (s : σ) : FileNode → σ × VisitSignal
  | .mk name data cs =>
    match visitKidsDCF f (anc ++ [name]) s cs with
    | (s2, .cont) => f s2 anc (.mk name data cs)
    | r => r
/-- The sibling loop of `VisitDepthChildFirst`: children in stored
(sorted) order, aborting at the first non-`cont` signal. -/
def visitKidsDCF {σ : Type} (f : Visitor σ) (anc : List String) (s : σ) : List FileNode → σ × VisitSignal
  | [] => (s, .cont)
  | c :: rest =>
    match visitNodeDCF f anc s c with
    | (s2, .cont) => visitKidsDCF f anc s2 rest
    | r => r
end

/-- `FileTree.VisitDepthChildFirst` (tree.go lines 163-166): the root
node itself is never visited. -/
def FileTree.VisitDepthChildFirst {σ : Type} (t : FileTree) (f : Visitor σ) (s : σ) : σ × VisitSignal :=
  visitKidsDCF f [] s t.Root.children

mutual
/-- The child-first visit order of a node's subtree as an explicit list of
(ancestor names, node) pairs: all descendants, then the node itself. -/
def visitOrderNode (anc : List String) : FileNode → List (List String × FileNode)
  | .mk name data cs => visitOrderKids (anc ++ [name]) cs ++ [(anc, .mk name data cs)]
/-- Concatenated visit orders of a sibling list. -/
def visitOrderKids (anc : List String) : List FileNode → List (List String × FileNode)
  | [] => []
  | c :: rest => visitOrderNode anc c ++ visitOrderKids anc rest
end

/-- Sequential fold of a visitor over an explicit visit list, aborting at
the first non-`cont` signal: the reference form of the traversal used to
state the first-error propagation property. -/
def foldAbort {σ : Type} (f : Visitor σ) (s : σ) : List (List String × FileNode) → σ × VisitSignal
  | [] => (s, .cont)
  | p :: rest =>
    match f s p.1 p.2 with
    | (s2, .cont) => foldAbort f s2 rest
    | r => r

/-! ## Stack (tree.go lines 173-190) -/

/-- The `graft` closure of `Stack` (tree.go lines 175-188), with the lower
tree as explicit state.  A whiteout marker resolves the real path it
shadows (`node.Path()` strips the whiteout prefix) and removes it from
the lower tree; any other node is added with its payload.  When `AddPath`
fails it returns a nil node together with the error, and the error branch
formats `newNode.Path()` — a nil-pointer dereference, i.e. a Go panic,
recorded as `VisitSignal.panicked`. -/
def stackGraft (lower : FileTree) (anc : List String) (node : FileNode) : FileTree × VisitSignal :=
  if node.IsWhiteout then
    match lower.RemovePath (nodePath anc node) with
    | (t, some e) => (t, .err ("cannot remove node " ++ nodePath anc node ++ ": " ++ e))
    | (t, none) => (t, .cont)
  else
    match lower.AddPath (nodePath anc node) node.data.fileInfo with
    | (t, newNode, some e) =>
      match newNode with
      | none => (t, .panicked)
      | some m =>
        -- dead arm: `AddPath` reports an error only together with a nil
        -- node; Go would format `newNode.Path()` into the message here.
        (t, .err ("cannot add node " ++ pathString anc m.name ++ ": " ++ e))
    | (t, _, none) => (t, .cont)

/-- `Stack` (tree.go lines 173-190): graft every node of `upper` onto the
lower tree, child-first. -/
def FileTree.Stack (lower upper : FileTree) : FileTree × VisitSignal :=
  upper.VisitDepthChildFirst (σ := FileTree) stackGraft lower

/-! ## Compare (tree.go lines 248-281) -/

/-- Modelled from the spec: node-level `compare(other)` (section 4.3,
`node.go` not in the snapshot): `Unmodified` only when every compared
payload attribute matches exactly, `Modified` on any mismatch. -/
def FileNode.compare (n other : FileNode) : DiffType :=
  if n.data.fileInfo = other.data.fileInfo then .Unmodified else .Modified

/-- Modelled from the spec: `AssignDiffType` (sections 3 and 4.3): once
set, a classification may only be escalated, never overwritten by a
weaker one, so the new classification is the severity maximum of the
current one and the assigned one. -/
def FileNode.AssignDiffType (n : FileNode) (t : DiffType) : FileNode :=
  n.withDiffType (n.data.diffType.combine t)

/-- Modelled from the spec: `deriveDiffType` (section 4.3): a directory's
classification is the most severe among the classification produced for
the node itself and those of its children (bottom-up, the children are
already final), assigned with the escalation rule. -/
def FileNode.deriveDiffType (n : FileNode) (t : DiffType) : FileNode :=
  n.AssignDiffType (n.children.foldl (fun acc c => acc.combine c.data.diffType) t)

/-- Apply an update function to the node at the given (already resolved)
segment chain: the value model of mutating through a node pointer
obtained from `GetNode`/`AddPath`. -/
def updateNodeAt (n : FileNode) (segs : List String) (f : FileNode → FileNode) : FileNode :=
  match segs with
  | [] => f n
  | name :: rest =>
    match lookupChild n.children name with
    | none => n
    | some c => n.withChildren (setChild (updateNodeAt c rest f) n.children)

/-- `markRemoved` (tree.go lines 274-281): annotate the node at the path
as `Removed`, propagating `GetNode`'s error. -/
def FileTree.markRemoved (t : FileTree) (path : String) : FileTree × Option String :=
  match t.GetNode path with
  | .error e => (t, some e)
  | .ok _ =>
    ({ t with Root := updateNodeAt t.Root (effSegs path) (fun m => m.AssignDiffType .Removed) }, none)

/-- The `graft` closure of `Compare` (tree.go lines 250-270): a whiteout
in `upper` marks the shadowed lower path `Removed`; a path absent in the
lower tree is created there and classified `Added`; a path present in
both is classified by the node-level comparison combined through
`deriveDiffType`. -/
def compareGraft (t : FileTree) (anc : List String) (upperNode : FileNode) : FileTree × VisitSignal :=
  if upperNode.IsWhiteout then
    match t.markRemoved (nodePath anc upperNode) with
    | (t2, some e) =>
      (t2, .err ("cannot remove upperNode " ++ nodePath anc upperNode ++ ": " ++ e))
    | (t2, none) => (t2, .cont)
  else
    match t.GetNode (nodePath anc upperNode) with
    | .error _ =>
      match t.AddPath (nodePath anc upperNode) upperNode.data.fileInfo with
      | (t2, _, some e) =>
        (t2, .err ("cannot add new upperNode " ++ nodePath anc upperNode ++ ": " ++ e))
      | (t2, _, none) =>
        ({ t2 with
            Root := updateNodeAt t2.Root (effSegs (nodePath anc upperNode))
              (fun m => m.AssignDiffType .Added) }, .cont)
    | .ok lowerNode =>
      ({ t with
          Root := updateNodeAt t.Root (effSegs (nodePath anc upperNode))
            (fun m => m.deriveDiffType (lowerNode.compare upperNode)) }, .cont)

/-- `Compare` (tree.go lines 248-272): walk `upper` child-first and
classify the receiver's nodes. -/
def FileTree.Compare (t upper : FileTree) : FileTree × VisitSignal :=
  upper.VisitDepthChildFirst (σ := FileTree) compareGraft t

/-! ## StackRange (tree.go lines 283-294) -/

/-- The layer loop of `StackRange`: stack each tree in turn onto the
accumulator; a `Stack` error is logged (`logrus.Debug`) and merging
continues with the next layer; a panic aborts the whole call (the
returned flag records it). -/
def stackSeq (t : FileTree) : List FileTree → FileTree × Bool
  | [] => (t, false)
  | u :: rest =>
    match t.Stack u with
    | (t2, .panicked) => (t2, true)
    | (t2, _) => stackSeq t2 rest

/-- The trees `StackRange` iterates: indices `start..stop` inclusive
(`trees[idx]`; an out-of-range index yields the default tree where Go
would panic — the claims only exercise in-range indices). -/
def rangeSlice (trees : List FileTree) (start stop : Nat) : List FileTree :=
  (List.range (stop + 1 - start)).map (fun i => trees.getD (start + i) default)

/-- `StackRange` (tree.go lines 283-294): clone `trees[0]`, then stack
`trees[start]` through `trees[stop]` onto it in order. -/
def StackRange (trees : List FileTree) (start stop : Nat) : FileTree × Bool :=
  stackSeq (trees.getD 0 default).Copy (rangeSlice trees start stop)

/-! ## Rendering (tree.go lines 43-139) -/

/-- `renderParams` (tree.go lines 43-51): a node in the context of the
greater tree, as needed to render one line. -/
structure RenderParams where
  node : FileNode
  spaces : List Bool
  childSpaces : List Bool
  showCollapsed : Bool
  isLast : Bool
deriving DecidableEq

/-- Modelled from the spec: `renderTreeLine` (section 4.5, `node.go` not
in the snapshot): per-ancestor indentation glyphs (blank for an ancestor
that was the last sibling at its level, vertical-bar continuation
otherwise), then the last-vs-middle branch glyph, then the
collapsed-vs-expanded item glyph, then the node name, newline-terminated. -/
def renderTreeLine (n : FileNode) (spaces : List Bool) (last collapsed : Bool) : String :=
  let otherBranches := spaces.foldl
    (fun acc space => acc ++ (if space then noBranchSpace else branchSpace)) ""
  let thisBranch := if last then lastItem else middleItem
  let collapsedIndicator := if collapsed then collapsedItem else uncollapsedItem
  otherBranches ++ thisBranch ++ " " ++ collapsedIndicator ++ n.name ++ newLine

/-- Modelled from the spec: `MetadataString()` renders the node's
metadata as a fixed-format attribute string (section 4.4).  No claim
exercises attribute-annotated rendering (`String` passes
`showAttributes = false`), so the exact format is immaterial; mode and
size are rendered. -/
def FileNode.MetadataString (n : FileNode) : String :=
  toString n.data.fileInfo.mode ++ " " ++ toString n.data.fileInfo.size

/-- The child loop of one `renderStringTreeBetween` iteration (tree.go
lines 67-102): walk the sorted children with their index, skipping a
hidden child or every child of a collapsed parent; a kept child's
`isLast` compares its index against the total child count (hidden
children included, as in the source), `showCollapsed` flags a collapsed
child that has children, and the child's own continuation-glyph list
grows only when the child will itself be expanded. -/
def mkChildParamsAux (parentCollapsed : Bool) (pcs : List Bool) (total : Nat) :
    Nat → List FileNode → List RenderParams
  | _, [] => []
  | idx, child :: rest =>
    (if child.data.viewInfo.hidden || parentCollapsed then []
     else
      let isLast := decide (idx = total - 1)
      let showCollapsed := child.data.viewInfo.collapsed && !child.children.isEmpty
      let childSpaces :=
        if !child.children.isEmpty && !child.data.viewInfo.collapsed then pcs ++ [isLast]
        else pcs
      [{ node := child, spaces := pcs, childSpaces := childSpaces,
         showCollapsed := showCollapsed, isLast := isLast }]) ++
      mkChildParamsAux parentCollapsed pcs total (idx + 1) rest

/-- The parameters queued for the children of one visited node. -/
def mkChildParams (p : RenderParams) : List RenderParams :=
  mkChildParamsAux p.node.data.viewInfo.collapsed p.childSpaces p.node.children.length 0
    p.node.children

/-- The visit loop of `renderStringTreeBetween` (tree.go lines 62-116)
after the root iteration: pop the front parameters, queue the child
parameters at the front (depth-first), emit the popped node when its row
lies in the window, stop once the row index passes `stopRow`.  The Go
loop guard is `len(paramsToVisit) > 0 && currentRow <= stopRow` with
`currentRow++` on every iteration, so the loop runs at most
`stopRow + 1 - currentRow` more times; `rem` carries exactly that
quantity (the callers maintain `rem = stopRow + 1 - currentRow`), making
the recursion structural: `rem = 0` is the failed `currentRow <= stopRow`
guard. -/
def renderLoop (startRow : Nat) : List RenderParams → Nat → Nat → List RenderParams
  | [], _, _ => []
  | _ :: _, 0, _ => []
  | p :: rest, rem + 1, currentRow =>
    (if startRow ≤ currentRow then [p] else []) ++
      renderLoop startRow (mkChildParams p ++ rest) rem (currentRow + 1)

/-- The final render of the emitted parameter list (tree.go lines
118-126): metadata prefix when requested, then the tree line of each
node. -/
def renderResult (params : List RenderParams) (showAttributes : Bool) : String :=
  params.foldl
    (fun acc p =>
      acc ++ (if showAttributes then p.node.MetadataString ++ " " else "") ++
        renderTreeLine p.node p.spaces p.isLast p.showCollapsed) ""

/-- `renderStringTreeBetween` (tree.go lines 53-129).  The loop's first
iteration pops the root parameters, queues the root's children and, being
the root ("never process the root node"), decrements the row counter so
that the loop proceeds over the children with the row counter still 0 and
no row emitted for the root; the root can never be queued again.  Row
indices are `Nat` as `stopRow` is never negative at the call sites
(`tree.Size` and a `uint` cast). -/
def FileTree.renderStringTreeBetween (t : FileTree) (startRow stopRow : Nat)
    (showAttributes : Bool) : String :=
  let rootParams : RenderParams :=
    { node := t.Root, spaces := [], childSpaces := [], showCollapsed := false, isLast := false }
  renderResult (renderLoop startRow (mkChildParams rootParams) (stopRow + 1) 0) showAttributes

/-- `String` (tree.go lines 131-134): the entire tree, rows `0..Size`. -/
def FileTree.String (t : FileTree) (showAttributes : Bool) :=
  t.renderStringTreeBetween 0 t.Size showAttributes

/-- `StringBetween` (tree.go lines 136-139). -/
def FileTree.StringBetween (t : FileTree) (start stop : Nat) (showAttributes : Bool) :=
  t.renderStringTreeBetween start stop showAttributes

/-! ## Reference forms used to state and prove the properties

The source walks paths through Go strings; the following definitions give
the same walks over clean (empty-segment-free) segment lists, proved
equivalent to the string walks below, plus decidable well-formedness
predicates and a path-annotated copy of the render loop. -/

/-- The clean-segment walk of `GetNode`: follow every segment, `none` the
moment one is absent. -/
def getSegs (n : FileNode) : List String → Option FileNode
  | [] => some n
  | s :: rest =>
    match lookupChild n.children s with
    | none => none
    | some c => getSegs c rest

/-- The clean-segment walk of `AddPath`: `addLoop` on a list without
empty segments. -/
def addSegs (n : FileNode) : List String → FileInfo → FileNode × Nat × Option FileNode × Option String
  | [], _ => (n, 0, some n, none)
  | name :: rest, data =>
    match lookupChild n.children name with
    | some c =>
      let c := if rest = [] then c.withPayload data else c
      let r := addSegs c rest data
      (n.withChildren (setChild r.1 n.children), r.2)
    | none =>
      match FileNode.AddChild name {} with
      | none => (n, 0, none, some ("could not add child node '" ++ name ++ "'"))
      | some child =>
        let child := if rest = [] then child.withPayload data else child
        let r := addSegs child rest data
        (n.withChildren (insertChild r.1 n.children), r.2.1 + 1, r.2.2)

/-- A raw segment list whose empty segments can be dropped without moving
the final (payload-receiving) position: either nothing remains after the
drop, or the raw list already ends in a non-empty segment.  `splitPath`
only produces such lists. -/
def okSegs (names : List String) : Bool :=
  (names.filter (fun s => s ≠ "")).isEmpty || (names.getLast?.getD "" ≠ "")

/-- A usable entry name: non-empty and free of the path separator (every
name created through `AddPath` satisfies this). -/
def cleanName (s : String) : Bool :=
  s ≠ "" && !s.data.contains '/'

mutual
/-- Every name in the subtree is a usable entry name. -/
def cleanNode : FileNode → Bool
  | .mk nm _ cs => cleanName nm && cleanKids cs
/-- `cleanNode` over a sibling list. -/
def cleanKids : List FileNode → Bool
  | [] => true
  | c :: rest => cleanNode c && cleanKids rest
end

/-- No node in the list carries the given name. -/
def nameFresh (s : String) : List FileNode → Bool
  | [] => true
  | c :: rest => !(c.name == s) && nameFresh s rest

mutual
/-- Sibling names are pairwise distinct throughout the subtree: the map
invariant of the Go children map (section 3 of the spec). -/
def uniqueNode : FileNode → Bool
  | .mk _ _ cs => uniqueKids cs
/-- `uniqueNode` over a sibling list, with head names fresh in the tail. -/
def uniqueKids : List FileNode → Bool
  | [] => true
  | c :: rest => nameFresh c.name rest && uniqueNode c && uniqueKids rest
end

mutual
/-- No node in the subtree is hidden or collapsed. -/
def noFlagsNode : FileNode → Bool
  | .mk _ d cs => !d.viewInfo.hidden && !d.viewInfo.collapsed && noFlagsKids cs
/-- `noFlagsNode` over a sibling list. -/
def noFlagsKids : List FileNode → Bool
  | [] => true
  | c :: rest => noFlagsNode c && noFlagsKids rest
end

/-- The node at the given segment chain is reachable by the renderer:
every node along the chain is not hidden, and every proper ancestor
(the walked-from node included) is not collapsed. -/
def visiblePath (n : FileNode) : List String → Bool
  | [] => true
  | s :: rest =>
    match lookupChild n.children s with
    | none => false
    | some c => !c.data.viewInfo.hidden && !n.data.viewInfo.collapsed && visiblePath c rest

/-- The root's render parameters, as seeded by `renderStringTreeBetween`. -/
def rootRenderParams (t : FileTree) : RenderParams :=
  { node := t.Root, spaces := [], childSpaces := [], showCollapsed := false, isLast := false }

/-- `mkChildParams` annotated with each child's full segment chain. -/
def mkChildParamsP (pr : List String × RenderParams) : List (List String × RenderParams) :=
  (mkChildParams pr.2).map (fun q => (pr.1 ++ [q.node.name], q))

/-- `renderLoop` annotated with each node's full segment chain; its
second projection is exactly `renderLoop`. -/
def renderLoopP (startRow : Nat) :
    List (List String × RenderParams) → Nat → Nat → List (List String × RenderParams)
  | [], _, _ => []
  | _ :: _, 0, _ => []
  | pr :: rest, rem + 1, currentRow =>
    (if startRow ≤ currentRow then [pr] else []) ++
      renderLoopP startRow (mkChildParamsP pr ++ rest) rem (currentRow + 1)

/-- The annotated rows `String` renders: the annotated loop run exactly as
`String` runs the render loop (`startRow = 0`, `stopRow = Size`). -/
def renderedRows (t : FileTree) : List (List String × RenderParams) :=
  renderLoopP 0 (mkChildParamsP ([], rootRenderParams t)) (t.Size + 1) 0

/-- The depth-first expansion of one annotated work item: the item
itself, then the expansions of its child parameters — the structural
(worklist-free) description of what the render loop visits. -/
def expandP (pr : List String × RenderParams) : List (List String × RenderParams) :=
  pr :: (mkChildParamsP pr).attach.flatMap (fun q => expandP q.1)
termination_by pr.2.node.count
decreasing_by
  obtain ⟨⟨π2, q2⟩, hq⟩ := q
  simp only [mkChildParamsP, List.mem_map] at hq
  obtain ⟨q0, hq0, hq0eq⟩ := hq
  have hmemaux : ∀ (b : Bool) (pcs : List Bool) (tot : Nat) (cs : List FileNode) (idx : Nat),
      q0 ∈ mkChildParamsAux b pcs tot idx cs → q0.node ∈ cs := by
    intro b pcs tot cs
    induction cs with
    | nil => intro idx h; simp [mkChildParamsAux] at h
    | cons c rest ih =>
      intro idx h
      by_cases hc : (c.data.viewInfo.hidden || b) = true
      · simp [mkChildParamsAux, hc] at h
        exact List.mem_cons_of_mem _ (ih _ h)
      · simp [mkChildParamsAux, hc] at h
        rcases h with h | h
        · rw [h]; simp [List.mem_cons]
        · exact List.mem_cons_of_mem _ (ih _ h)
  have hmem : q0.node ∈ pr.2.node.children := hmemaux _ _ _ _ _ hq0
  have hle : ∀ (cs : List FileNode), q0.node ∈ cs → q0.node.count ≤ countChildren cs := by
    intro cs
    induction cs with
    | nil => intro h; simp at h
    | cons c rest ih =>
      intro h
      rcases List.mem_cons.mp h with h | h
      · subst h; simp only [countChildren]; omega
      · have := ih h; simp only [countChildren]; omega
  have hlt : q0.node.count < pr.2.node.count := by
    have h1 := hle _ hmem
    cases hn : pr.2.node with
    | mk nm dt cs =>
      rw [hn] at h1
      simp only [FileNode.children] at h1
      simp only [FileNode.count]
      omega
  cases hq0eq
  simpa using hlt

/-! # Theorems -/

/-! ## Constructor and accessor lemmas -/

@[simp]
theorem FileNode.name_mk (n : String) (d : NodeData) (cs : List FileNode) :
    (FileNode.mk n d cs).name = n := rfl

@[simp]
theorem FileNode.data_mk (n : String) (d : NodeData) (cs : List FileNode) :
    (FileNode.mk n d cs).data = d := rfl

@[simp]
theorem FileNode.children_mk (n : String) (d : NodeData) (cs : List FileNode) :
    (FileNode.mk n d cs).children = cs := rfl

@[simp]
theorem FileNode.name_withChildren (n : FileNode) (cs : List FileNode) :
    (n.withChildren cs).name = n.name := by
  cases n; rfl

@[simp]
theorem FileNode.data_withChildren (n : FileNode) (cs : List FileNode) :
    (n.withChildren cs).data = n.data := by
  cases n; rfl

@[simp]
theorem FileNode.children_withChildren (n : FileNode) (cs : List FileNode) :
    (n.withChildren cs).children = cs := by
  cases n; rfl

@[simp]
theorem FileNode.name_withPayload (n : FileNode) (d : FileInfo) :
    (n.withPayload d).name = n.name := by
  cases n; rfl

@[simp]
theorem FileNode.children_withPayload (n : FileNode) (d : FileInfo) :
    (n.withPayload d).children = n.children := by
  cases n; rfl

@[simp]
theorem FileNode.fileInfo_withPayload (n : FileNode) (d : FileInfo) :
    (n.withPayload d).data.fileInfo = d := by
  cases n; rfl

/-! ## Children-map lemmas -/

theorem lookupChild_name {cs : List FileNode} {nm : String} {c : FileNode}
    (h : lookupChild cs nm = some c) : c.name = nm := by
  induction cs with
  | nil => simp [lookupChild] at h
  | cons d rest ih =>
    by_cases hd : d.name = nm
    · simp [lookupChild, hd] at h
      rw [← h]; exact hd
    · simp only [lookupChild, hd, if_false] at h
      exact ih h

theorem lookupChild_setChild_self {cs : List FileNode} {nm : String} {c0 : FileNode}
    (h : lookupChild cs nm = some c0) (c : FileNode) (hc : c.name = nm) :
    lookupChild (setChild c cs) nm = some c := by
  induction cs with
  | nil => simp [lookupChild] at h
  | cons d rest ih =>
    by_cases hd : d.name = nm
    · have hd2 : d.name = c.name := by rw [hc]; exact hd
      simp only [setChild, hd2, if_pos rfl]
      simp [lookupChild, hc]
    · have hd2 : ¬(d.name = c.name) := by rw [hc]; exact hd
      simp only [lookupChild, hd, if_false] at h
      simp only [setChild, hd2, if_false]
      simp [lookupChild, hd, ih h]

theorem lookupChild_setChild_other {cs : List FileNode} {nm : String} (c : FileNode)
    (h : nm ≠ c.name) :
    lookupChild (setChild c cs) nm = lookupChild cs nm := by
  induction cs with
  | nil => simp [setChild]
  | cons d rest ih =>
    by_cases hd : d.name = c.name
    · have hcn : ¬(c.name = nm) := fun hh => h hh.symm
      have hdn : ¬(d.name = nm) := by rw [hd]; exact hcn
      simp only [setChild, hd, if_pos rfl]
      simp [lookupChild, hdn, hcn]
    · simp only [setChild, hd, if_false]
      by_cases he : d.name = nm
      · simp [lookupChild, he]
      · simp [lookupChild, he, ih]

theorem lookupChild_insertChild_self {cs : List FileNode} (c : FileNode) {nm : String}
    (hc : c.name = nm) (h : lookupChild cs nm = none) :
    lookupChild (insertChild c cs) nm = some c := by
  subst hc
  induction cs with
  | nil => simp [insertChild, lookupChild]
  | cons d rest ih =>
    simp only [lookupChild] at h
    by_cases hd : d.name = c.name
    · simp [hd] at h
    · simp only [hd, if_false] at h
      by_cases hlt : nameLt c.name d.name = true
      · simp [insertChild, hlt, lookupChild]
      · simp only [insertChild, hlt, if_false]
        simp [lookupChild, hd, ih h]

theorem lookupChild_insertChild_other {cs : List FileNode} (c : FileNode) {nm : String}
    (h : nm ≠ c.name) :
    lookupChild (insertChild c cs) nm = lookupChild cs nm := by
  have hcn : ¬(c.name = nm) := fun hh => h hh.symm
  induction cs with
  | nil => simp [insertChild, lookupChild, hcn]
  | cons d rest ih =>
    by_cases hlt : nameLt c.name d.name = true
    · simp [insertChild, hlt, lookupChild, hcn]
    · simp only [insertChild, hlt, if_false]
      by_cases he : d.name = nm
      · simp [lookupChild, he]
      · simp [lookupChild, he, ih]

/-! ## Clean-walk lemmas: `addSegs` then `getSegs` -/

theorem AddChild_valid {name : String} (h : invalidName name = false) (d : FileInfo) :
    FileNode.AddChild name d = some (.mk name { fileInfo := d } []) := by
  simp [FileNode.AddChild, h]

theorem addSegs_name (names : List String) :
    ∀ (n : FileNode) (d : FileInfo), (addSegs n names d).1.name = n.name := by
  induction names with
  | nil => intro n d; rfl
  | cons name rest ih =>
    intro n d
    cases hlk : lookupChild n.children name with
    | some c => simp [addSegs, hlk]
    | none =>
      by_cases hv : invalidName name = true
      · simp [addSegs, hlk, FileNode.AddChild, hv]
      · simp [addSegs, hlk, FileNode.AddChild, hv]

theorem addSegs_ok_getSegs_payload (names : List String) :
    ∀ (n : FileNode) (d : FileInfo), names ≠ [] →
      (∀ s ∈ names, invalidName s = false) →
      (addSegs n names d).2.2.2 = none ∧
        ∃ m, getSegs (addSegs n names d).1 names = some m ∧ m.data.fileInfo = d := by
  induction names with
  | nil => intro n d h; exact absurd rfl h
  | cons name rest ih =>
    intro n d _ hval
    have hvname : invalidName name = false := hval name (by simp)
    by_cases hrestne : rest = []
    · subst hrestne
      cases hlk : lookupChild n.children name with
      | some c =>
        refine ⟨by simp [addSegs, hlk], ?_⟩
        refine ⟨c.withPayload d, ?_, by simp⟩
        simp only [addSegs, hlk, if_pos rfl]
        simp only [getSegs, FileNode.children_withChildren]
        rw [lookupChild_setChild_self hlk _ (by simp [lookupChild_name hlk])]
        simp [addSegs, getSegs]
      | none =>
        refine ⟨?_, ?_⟩
        · simp [addSegs, hlk, AddChild_valid hvname]
        · refine ⟨(FileNode.mk name { fileInfo := {} } []).withPayload d, ?_, by simp⟩
          simp only [addSegs, hlk, AddChild_valid hvname, if_pos rfl]
          simp only [getSegs, FileNode.children_withChildren]
          rw [lookupChild_insertChild_self _ (by simp) (by simpa using hlk)]
          simp [addSegs, getSegs]
    · have hvrest : ∀ s ∈ rest, invalidName s = false := fun s hs => hval s (by simp [hs])
      cases hlk : lookupChild n.children name with
      | some c =>
        obtain ⟨herr, m, hm, hmd⟩ := ih c d hrestne hvrest
        refine ⟨by simp [addSegs, hlk, hrestne, herr], ?_⟩
        refine ⟨m, ?_, hmd⟩
        simp only [addSegs, hlk, if_neg hrestne]
        simp only [getSegs, FileNode.children_withChildren]
        rw [lookupChild_setChild_self hlk _ (by simp [addSegs_name, lookupChild_name hlk])]
        exact hm
      | none =>
        obtain ⟨herr, m, hm, hmd⟩ :=
          ih (FileNode.mk name { fileInfo := {} } []) d hrestne hvrest
        refine ⟨by simp [addSegs, hlk, AddChild_valid hvname, hrestne, herr], ?_⟩
        refine ⟨m, ?_, hmd⟩
        simp only [addSegs, hlk, AddChild_valid hvname, if_neg hrestne]
        simp only [getSegs, FileNode.children_withChildren]
        rw [lookupChild_insertChild_self _ (by simp [addSegs_name]) (by simpa using hlk)]
        exact hm

/-! ## Normalization: the string walks equal the clean-segment walks -/

theorem getLoop_eq_getSegs (names : List String) :
    ∀ (n : FileNode) (orig : String),
      getLoop n names orig =
        match getSegs n (names.filter (fun s => s ≠ "")) with
        | some m => .ok m
        | none => .error ("path does not exist: " ++ orig) := by
  induction names with
  | nil => intro n orig; simp [getLoop, getSegs]
  | cons name rest ih =>
    intro n orig
    by_cases hname : name = ""
    · subst hname
      simp only [getLoop, if_pos rfl, List.filter]
      simpa using ih n orig
    · have hf : (name :: rest).filter (fun s => s ≠ "") =
          name :: rest.filter (fun s => s ≠ "") := by
        simp [List.filter_cons, hname]
      simp only [getLoop, if_neg hname, hf]
      cases hlk : lookupChild n.children name with
      | none => simp [getSegs, hlk]
      | some c => simpa [getSegs, hlk] using ih c orig

theorem getLastq_cons {α : Type} (a : α) {l : List α} (h : l ≠ []) :
    (a :: l).getLast? = l.getLast? := by
  cases l with
  | nil => exact absurd rfl h
  | cons b t => exact List.getLast?_cons_cons

theorem splitSlashChars_ne_nil (cs : List Char) : splitSlashChars cs ≠ [] := by
  cases cs with
  | nil => simp [splitSlashChars]
  | cons c rest =>
    by_cases h : c = '/'
    · simp [splitSlashChars, h]
    · simp only [splitSlashChars, h, if_false]
      cases splitSlashChars rest with
      | nil => simp
      | cons x t => simp

theorem splitSlashChars_last_ne_nil (cs : List Char) :
    cs ≠ [] → cs.getLast? ≠ some '/' →
      ∃ l, (splitSlashChars cs).getLast? = some l ∧ l ≠ [] := by
  induction cs with
  | nil => intro h; exact absurd rfl h
  | cons c rest ih =>
    intro _ hlast
    by_cases hrest : rest = []
    · subst hrest
      have hc : c ≠ '/' := by simpa using hlast
      refine ⟨[c], ?_, by simp⟩
      simp [splitSlashChars, hc]
    · have hlast2 : rest.getLast? ≠ some '/' := by
        rwa [getLastq_cons c hrest] at hlast
      obtain ⟨l, hl, hlne⟩ := ih hrest hlast2
      by_cases hc : c = '/'
      · refine ⟨l, ?_, hlne⟩
        rw [splitSlashChars, if_pos hc]
        rwa [getLastq_cons _ (splitSlashChars_ne_nil rest)]
      · cases hsp : splitSlashChars rest with
        | nil => exact absurd hsp (splitSlashChars_ne_nil rest)
        | cons x t =>
          cases ht : t with
          | nil =>
            refine ⟨c :: x, ?_, by simp⟩
            simp [splitSlashChars, hc, hsp, ht]
          | cons y u =>
            refine ⟨l, ?_, hlne⟩
            rw [hsp, ht] at hl
            rw [List.getLast?_cons_cons] at hl
            simp only [splitSlashChars, hc, if_false, hsp, ht]
            rw [List.getLast?_cons_cons]
            exact hl

theorem dropWhile_head_ne (p : Char → Bool) (cs : List Char) (c : Char) (hc : p c = true) :
    (cs.dropWhile p).head? ≠ some c := by
  induction cs with
  | nil => simp [List.dropWhile]
  | cons x rest ih =>
    by_cases hx : p x = true
    · simpa [List.dropWhile, hx] using ih
    · simp only [List.dropWhile, hx]
      intro h
      simp only [List.head?_cons, Option.some.injEq] at h
      rw [← h] at hc
      simp [hc] at hx

theorem trimSlashChars_last (cs : List Char) :
    (trimSlashChars cs).getLast? ≠ some '/' := by
  unfold trimSlashChars
  rw [List.getLast?_reverse]
  exact dropWhile_head_ne _ _ _ (by simp)

theorem okSegs_splitPath (s : String) : okSegs (splitPath s) = true := by
  by_cases h : trimSlashChars s.data = []
  · simp [okSegs, splitPath, h, splitSlashChars, List.filter]
  · obtain ⟨l, hl, hlne⟩ := splitSlashChars_last_ne_nil _ h (trimSlashChars_last s.data)
    have hlast : (splitPath s).getLast? = some (⟨l⟩ : String) := by
      simp [splitPath, List.getLast?_map, hl]
    simp only [okSegs, hlast, Option.getD_some, Bool.or_eq_true, decide_eq_true_eq]
    right
    intro hcontra
    apply hlne
    have hdata : (⟨l⟩ : String).data = ("" : String).data := by rw [hcontra]
    simpa using hdata

theorem getLast_ne_empty_filter (l : List String) (x : String) (hx : l.getLast? = some x)
    (hne : x ≠ "") : l.filter (fun s => s ≠ "") ≠ [] := by
  have hmem : x ∈ l := List.mem_of_mem_getLast? (by simp [hx])
  have hmf : x ∈ l.filter (fun s => s ≠ "") := by
    rw [List.mem_filter]
    exact ⟨hmem, by simpa using hne⟩
  intro hc
  rw [hc] at hmf
  simp at hmf

theorem addLoop_eq_addSegs (names : List String) :
    ∀ (n : FileNode) (d : FileInfo), okSegs names = true →
      addLoop n names d = addSegs n (names.filter (fun s => s ≠ "")) d := by
  induction names with
  | nil => intro n d _; simp [addLoop, addSegs, List.filter]
  | cons name rest ih =>
    intro n d hok
    by_cases hname : name = ""
    · subst hname
      by_cases hrest : rest = []
      · subst hrest
        simp [addLoop, addSegs, List.filter]
      · have hok2 : okSegs rest = true := by
          simp only [okSegs, Bool.or_eq_true, List.isEmpty_iff, decide_eq_true_eq] at hok ⊢
          rcases hok with hok | hok
          · left; simpa [List.filter] using hok
          · right; rwa [getLastq_cons _ hrest] at hok
        simp only [addLoop, if_pos rfl, List.filter]
        simpa using ih n d hok2
    · have hsplit : (name :: rest).filter (fun s => s ≠ "") =
          name :: rest.filter (fun s => s ≠ "") := by
        simp [List.filter_cons, hname]
      by_cases hrest : rest = []
      · subst hrest
        simp [addLoop, addSegs, List.filter, hname]
      · have hlastr : rest.getLast? ≠ some "" := by
          have h1 : ¬((name :: rest).filter (fun s => s ≠ "")).isEmpty = true := by
            rw [hsplit]; simp
          simp only [okSegs, Bool.or_eq_true, decide_eq_true_eq] at hok
          rcases hok with hok | hok
          · exact absurd hok h1
          · rw [getLastq_cons _ hrest] at hok
            intro hcontra
            rw [hcontra] at hok
            simp at hok
        obtain ⟨x, hx⟩ : ∃ x, rest.getLast? = some x := by
          cases hg : rest.getLast? with
          | none => exact absurd (List.getLast?_eq_none_iff.mp hg) hrest
          | some x => exact ⟨x, rfl⟩
        have hxne : x ≠ "" := by
          intro hcontra
          rw [hcontra] at hx
          exact hlastr hx
        have hok2 : okSegs rest = true := by
          simp only [okSegs, Bool.or_eq_true, decide_eq_true_eq]
          right
          rw [hx]
          simpa using hxne
        have hfilterne : rest.filter (fun s => s ≠ "") ≠ [] :=
          getLast_ne_empty_filter rest x hx hxne
        rw [hsplit]
        cases hlk : lookupChild n.children name with
        | some c =>
          simp only [addLoop, if_neg hname, hlk, if_neg hrest, addSegs, if_neg hfilterne]
          rw [ih c d hok2]
        | none =>
          by_cases hv : invalidName name = true
          · simp [addLoop, hname, hlk, addSegs, FileNode.AddChild, hv]
          · simp only [Bool.not_eq_true] at hv
            simp only [addLoop, if_neg hname, hlk, AddChild_valid hv, if_neg hrest, addSegs,
              if_neg hfilterne]
            rw [ih _ d hok2]

/-! ## Normalization helpers at the tree level -/

theorem GetNode_eq_getSegs (t : FileTree) (p : String) :
    t.GetNode p =
      match getSegs t.Root (effSegs p) with
      | some m => .ok m
      | none => .error ("path does not exist: " ++ p) := by
  rw [FileTree.GetNode, getLoop_eq_getSegs]
  rfl

theorem AddPath_eq_addSegs (t : FileTree) (p : String) (d : FileInfo) :
    t.AddPath p d =
      ({ t with
          Root := (addSegs t.Root (effSegs p) d).1
          Size := t.Size + (addSegs t.Root (effSegs p) d).2.1 },
        (addSegs t.Root (effSegs p) d).2.2) := by
  rw [FileTree.AddPath, addLoop_eq_addSegs _ _ _ (okSegs_splitPath p)]
  rfl

theorem RemovePath_eq_removeSegs (t : FileTree) (p : String) :
    t.RemovePath p =
      match getSegs t.Root (effSegs p) with
      | none => (t, some ("path does not exist: " ++ p))
      | some node =>
        match effSegs p with
        | [] => (t, some "cannot remove the root node")
        | segs =>
          ({ Root := removeSegs t.Root segs
             Size := t.Size - node.count
             FileSize := t.FileSize - node.totalFileSize }, none) := by
  rw [FileTree.RemovePath, GetNode_eq_getSegs]
  cases hg : getSegs t.Root (effSegs p) with
  | none => rfl
  | some node => rfl

/-! ## Claim C9 -/

/-- C9: `GetNode`, `AddPath` and `RemovePath` never reject a path as
malformed: every input path (the empty string and pure-whitespace strings
included) is normalized by trimming surrounding slashes and skipping
empty segments — each operation equals its clean-segment walk on
`effSegs` — and the walks are total functions whose only failures are the
path-not-found and root-removal error values (empty and all-slash paths
resolve to the root rather than being rejected). -/
theorem c9_operations_normalize_paths :
    (∀ (t : FileTree) (p : String),
      t.GetNode p =
        match getSegs t.Root (effSegs p) with
        | some m => .ok m
        | none => .error ("path does not exist: " ++ p)) ∧
    (∀ (t : FileTree) (p : String) (d : FileInfo),
      t.AddPath p d =
        ({ t with
            Root := (addSegs t.Root (effSegs p) d).1
            Size := t.Size + (addSegs t.Root (effSegs p) d).2.1 },
          (addSegs t.Root (effSegs p) d).2.2)) ∧
    (∀ (t : FileTree) (p : String),
      t.RemovePath p =
        match getSegs t.Root (effSegs p) with
        | none => (t, some ("path does not exist: " ++ p))
        | some node =>
          match effSegs p with
          | [] => (t, some "cannot remove the root node")
          | segs =>
            ({ Root := removeSegs t.Root segs
               Size := t.Size - node.count
               FileSize := t.FileSize - node.totalFileSize }, none)) ∧
    (∀ t : FileTree, (t.GetNode "").isOk = true ∧ (t.GetNode "///").isOk = true ∧
      (t.AddPath "   " ({} : FileInfo)).2.2 = none) := by
  refine ⟨GetNode_eq_getSegs, AddPath_eq_addSegs, RemovePath_eq_removeSegs, ?_⟩
  intro t
  refine ⟨?_, ?_, ?_⟩
  · rw [GetNode_eq_getSegs]
    have : effSegs "" = [] := by decide
    rw [this]
    rfl
  · rw [GetNode_eq_getSegs]
    have : effSegs "///" = [] := by decide
    rw [this]
    rfl
  · rw [AddPath_eq_addSegs]
    have hne : effSegs "   " ≠ [] := by decide
    have hval : ∀ s ∈ effSegs "   ", invalidName s = false := by decide
    exact (addSegs_ok_getSegs_payload _ t.Root {} hne hval).1

/-! ## Claim C4 -/

/-- C4 counterexample: for the path `"/"` (every segment empty after
normalization) `AddPath` returns the root without attaching the payload
— the loop's payload assignment is guarded by the empty-segment skip —
so the node `GetNode` returns carries the empty payload, not `d`: the
claimed round trip fails at `p = "/"`, `d = {size := 1}`. -/
theorem c4_counterexample_root_path :
    ((NewFileTree.AddPath "/" { size := 1 }).1.GetNode "/").toOption.map
        (fun m => m.data.fileInfo) = some ({} : FileInfo) ∧
      ({} : FileInfo) ≠ { size := 1 } := by
  constructor
  · decide
  · decide

/-- C4 (amended): for every tree, every payload and every path that
normalizes to at least one segment, none carrying the invalid-name
character, `AddPath(p, d)` succeeds and a following `GetNode(p)` returns
a node whose payload equals `d`. -/
theorem c4_addPath_getNode_roundtrip (t : FileTree) (p : String) (d : FileInfo)
    (hne : effSegs p ≠ []) (hval : ∀ s ∈ effSegs p, invalidName s = false) :
    (t.AddPath p d).2.2 = none ∧
      ∃ m, (t.AddPath p d).1.GetNode p = .ok m ∧ m.data.fileInfo = d := by
  obtain ⟨herr, m, hm, hmd⟩ := addSegs_ok_getSegs_payload (effSegs p) t.Root d hne hval
  rw [AddPath_eq_addSegs]
  refine ⟨herr, m, ?_, hmd⟩
  rw [FileTree.GetNode, getLoop_eq_getSegs]
  have : getSegs (addSegs t.Root (effSegs p) d).1
      ((splitPath p).filter (fun s => s ≠ "")) = some m := hm
  rw [this]

/-- C4 witness: the amended claim at `t = NewFileTree`, `p = "/a/b"`,
`d = {size := 7}`. -/
theorem c4_addPath_getNode_roundtrip_witness :
    effSegs "/a/b" ≠ [] ∧ (∀ s ∈ effSegs "/a/b", invalidName s = false) ∧
      ((NewFileTree.AddPath "/a/b" { size := 7 }).2.2 = none ∧
        ∃ m, (NewFileTree.AddPath "/a/b" { size := 7 }).1.GetNode "/a/b" = .ok m ∧
          m.data.fileInfo = { size := 7 }) :=
  ⟨by decide, by decide,
    c4_addPath_getNode_roundtrip NewFileTree "/a/b" { size := 7 } (by decide) (by decide)⟩

/-! ## Traversal: the child-first visit equals the aborting fold -/

theorem foldAbort_append {σ : Type} (f : Visitor σ) (l1 l2 : List (List String × FileNode)) :
    ∀ s : σ, foldAbort f s (l1 ++ l2) =
      match foldAbort f s l1 with
      | (s2, .cont) => foldAbort f s2 l2
      | r => r := by
  induction l1 with
  | nil => intro s; simp [foldAbort]
  | cons p rest ih =>
    intro s
    simp only [List.cons_append, foldAbort]
    cases hf : f s p.1 p.2 with
    | mk s2 sig =>
      cases sig with
      | cont => exact ih s2
      | err m => rfl
      | panicked => rfl

theorem foldAbort_single {σ : Type} (f : Visitor σ) (s : σ) (p : List String × FileNode) :
    foldAbort f s [p] = f s p.1 p.2 := by
  simp only [foldAbort]
  cases hf : f s p.1 p.2 with
  | mk s2 sig => cases sig <;> rfl

mutual
theorem visitNodeDCF_eq_foldAbort {σ : Type} (f : Visitor σ) (anc : List String) (s : σ) :
    (n : FileNode) → visitNodeDCF f anc s n = foldAbort f s (visitOrderNode anc n)
  | .mk name data cs => by
    rw [visitNodeDCF, visitOrderNode, foldAbort_append,
      visitKidsDCF_eq_foldAbort f (anc ++ [name]) s cs]
    cases hk : foldAbort f s (visitOrderKids (anc ++ [name]) cs) with
    | mk s2 sig =>
      cases sig with
      | cont => dsimp only; rw [foldAbort_single]
      | err m => rfl
      | panicked => rfl
theorem visitKidsDCF_eq_foldAbort {σ : Type} (f : Visitor σ) (anc : List String) (s : σ) :
    (cs : List FileNode) → visitKidsDCF f anc s cs = foldAbort f s (visitOrderKids anc cs)
  | [] => by simp [visitKidsDCF, visitOrderKids, foldAbort]
  | c :: rest => by
    rw [visitKidsDCF, visitOrderKids, foldAbort_append,
      visitNodeDCF_eq_foldAbort f anc s c]
    cases hn : foldAbort f s (visitOrderNode anc c) with
    | mk s2 sig =>
      cases sig with
      | cont => dsimp only; rw [visitKidsDCF_eq_foldAbort f anc s2 rest]
      | err m => rfl
      | panicked => rfl
end

/-! ## Claim C6 -/

/-- C6: a single `Stack` or `Compare` call propagates the first per-node
error of its traversal visitor and performs no further merge/diff work:
the child-first traversal both are built on equals the sequential
first-error-aborting fold over the explicit visit order (first
conjunct), and in a concrete scenario a `Stack`/`Compare` whose first
visited node is a dangling whiteout stops before the later node `c` is
processed.  `StackRange` instead logs a layer's `Stack` error and keeps
merging: with the same broken layer in the middle, the following layer's
`/d` still reaches the merged tree. -/
theorem c6_first_error_abort_and_stackrange_continues :
    (∀ (σ : Type) (f : Visitor σ) (t : FileTree) (s : σ),
      t.VisitDepthChildFirst f s = foldAbort f s (visitOrderKids [] t.Root.children)) ∧
    (((NewFileTree.AddPath "/a" {}).1.Stack
        ((NewFileTree.AddPath "/.wh.b" {}).1.AddPath "/c" {}).1).2
      = .err "cannot remove node /b: path does not exist: /b") ∧
    ((((NewFileTree.AddPath "/a" {}).1.Stack
        ((NewFileTree.AddPath "/.wh.b" {}).1.AddPath "/c" {}).1).1.GetNode "/c").isOk
      = false) ∧
    ((NewFileTree.Compare ((NewFileTree.AddPath "/.wh.b" {}).1.AddPath "/c" {}).1).2
      = .err "cannot remove upperNode /b: path does not exist: /b") ∧
    (((NewFileTree.Compare
        ((NewFileTree.AddPath "/.wh.b" {}).1.AddPath "/c" {}).1).1.GetNode "/c").isOk
      = false) ∧
    ((StackRange [(NewFileTree.AddPath "/a" {}).1,
        ((NewFileTree.AddPath "/.wh.b" {}).1.AddPath "/c" {}).1,
        (NewFileTree.AddPath "/d" {}).1] 0 2).2 = false) ∧
    (((StackRange [(NewFileTree.AddPath "/a" {}).1,
        ((NewFileTree.AddPath "/.wh.b" {}).1.AddPath "/c" {}).1,
        (NewFileTree.AddPath "/d" {}).1] 0 2).1.GetNode "/d").isOk = true) ∧
    (((StackRange [(NewFileTree.AddPath "/a" {}).1,
        ((NewFileTree.AddPath "/.wh.b" {}).1.AddPath "/c" {}).1,
        (NewFileTree.AddPath "/d" {}).1] 0 2).1.GetNode "/a").isOk = true) := by
  refine ⟨?_, by decide, by decide, by decide, by decide, by decide, by decide, by decide⟩
  intro σ f t s
  rw [FileTree.VisitDepthChildFirst, visitKidsDCF_eq_foldAbort]

/-! ## Claim C5 -/

theorem stackSeq_append (l1 l2 : List FileTree) :
    ∀ t : FileTree, stackSeq t (l1 ++ l2) =
      match stackSeq t l1 with
      | (t1, true) => (t1, true)
      | (t1, false) => stackSeq t1 l2 := by
  induction l1 with
  | nil => intro t; simp [stackSeq]
  | cons u rest ih =>
    intro t
    simp only [List.cons_append, stackSeq]
    cases hs : t.Stack u with
    | mk t2 sig =>
      cases sig with
      | cont => exact ih t2
      | err m => exact ih t2
      | panicked => rfl

theorem rangeSlice_split (trees : List FileTree) (k n : Nat) (hk : k < n) :
    rangeSlice trees 0 n = rangeSlice trees 0 k ++ rangeSlice trees (k + 1) n := by
  unfold rangeSlice
  have h1 : n + 1 - 0 = (k + 1) + (n - k) := by omega
  rw [h1, List.range_add, List.map_append, List.map_map]
  have h3 : k + 1 - 0 = k + 1 := by omega
  have h4 : n + 1 - (k + 1) = n - k := by omega
  rw [h3, h4]
  congr 1
  apply List.map_congr_left
  intro i _
  simp only [Function.comp]
  congr 1
  omega

/-- C5 counterexample: stacking is not associative over contiguous
ranges.  With `trees = [{foo}, {.wh.foo}]`, `k = 0`, `n = 1`:
`StackRange(trees,0,1)` removes `foo`, but stacking
`StackRange(trees,1,1)` onto `StackRange(trees,0,0)` does not — the
pre-merged upper range consumed its whiteout (and was re-seeded from
`trees[0]`), so `foo` survives and the two trees differ. -/
theorem c5_counterexample_whiteout_consumed :
    (((StackRange [(NewFileTree.AddPath "/foo" {}).1,
        (NewFileTree.AddPath "/.wh.foo" {}).1] 0 1).1.GetNode "/foo").isOk = false) ∧
    ((((StackRange [(NewFileTree.AddPath "/foo" {}).1,
          (NewFileTree.AddPath "/.wh.foo" {}).1] 0 0).1.Stack
        (StackRange [(NewFileTree.AddPath "/foo" {}).1,
          (NewFileTree.AddPath "/.wh.foo" {}).1] 1 1).1).1.GetNode "/foo").isOk = true) ∧
    (StackRange [(NewFileTree.AddPath "/foo" {}).1,
        (NewFileTree.AddPath "/.wh.foo" {}).1] 0 1).1 ≠
      ((StackRange [(NewFileTree.AddPath "/foo" {}).1,
          (NewFileTree.AddPath "/.wh.foo" {}).1] 0 0).1.Stack
        (StackRange [(NewFileTree.AddPath "/foo" {}).1,
          (NewFileTree.AddPath "/.wh.foo" {}).1] 1 1).1).1 := by
  refine ⟨by decide, by decide, by decide⟩

/-- C5 (amended): for every ordered collection of trees and every
`0 ≤ k < n`, `StackRange(trees, 0, n)` equals `StackRange(trees, 0, k)`
with the individual layers `trees[k+1] .. trees[n]` stacked onto it in
order (a panic in the first range propagates).  Pre-merging the upper
range into one tree is what the counterexample rules out: it consumes
whiteouts and re-seeds the merge from `trees[0]`. -/
theorem c5_stackRange_layerwise_split (trees : List FileTree) (k n : Nat) (hk : k < n) :
    StackRange trees 0 n =
      match StackRange trees 0 k with
      | (t1, true) => (t1, true)
      | (t1, false) => stackSeq t1 (rangeSlice trees (k + 1) n) := by
  unfold StackRange
  rw [rangeSlice_split trees k n hk, stackSeq_append]

/-- C5 witness: the amended range split at two concrete layers. -/
theorem c5_stackRange_layerwise_split_witness :
    0 < 1 ∧
      StackRange [(NewFileTree.AddPath "/foo" {}).1,
          (NewFileTree.AddPath "/bar" {}).1] 0 1 =
        match StackRange [(NewFileTree.AddPath "/foo" {}).1,
            (NewFileTree.AddPath "/bar" {}).1] 0 0 with
        | (t1, true) => (t1, true)
        | (t1, false) =>
          stackSeq t1 (rangeSlice [(NewFileTree.AddPath "/foo" {}).1,
            (NewFileTree.AddPath "/bar" {}).1] 1 1) :=
  ⟨by decide,
    c5_stackRange_layerwise_split [(NewFileTree.AddPath "/foo" {}).1,
      (NewFileTree.AddPath "/bar" {}).1] 0 1 (by decide)⟩

/-! ## Claim C10 -/

/-- C10: in `Stack`'s graft, for every lower tree and every non-whiteout
upper node for which `AddPath` returns an error together with a nil
node, the error-reporting branch formats `newNode.Path()` on the nil
node instead of returning cleanly: the graft's outcome is the
nil-dereference panic, not an error value.  The concrete conjunct runs a
whole `Stack` call into that branch (an upper node named `"a\x00"`,
whose NUL name makes `AddChild` fail). -/
theorem c10_stack_error_branch_panics (lower : FileTree) (anc : List String) (n : FileNode)
    (hw : n.IsWhiteout = false)
    (hnil : (lower.AddPath (nodePath anc n) n.data.fileInfo).2.1 = none)
    (herr : (lower.AddPath (nodePath anc n) n.data.fileInfo).2.2.isSome = true) :
    stackGraft lower anc n =
      ((lower.AddPath (nodePath anc n) n.data.fileInfo).1, .panicked) ∧
    (NewFileTree.Stack
        { Root := .mk "" {} [.mk "a\x00" {} []], Size := 1, FileSize := 0 }).2
      = .panicked := by
  constructor
  · rw [stackGraft, if_neg (by rw [hw]; exact Bool.false_ne_true)]
    rcases hres : lower.AddPath (nodePath anc n) n.data.fileInfo with ⟨t2, newNode, err⟩
    rw [hres] at hnil herr
    simp only at hnil herr
    cases err with
    | none => simp at herr
    | some e =>
      cases newNode with
      | none => rfl
      | some m => simp at hnil
  · decide

/-- C10 witness: the branch hypotheses hold at the concrete invalid-name
node, and the graft panics there. -/
theorem c10_stack_error_branch_panics_witness :
    ((FileNode.mk "a\x00" {} []).IsWhiteout = false) ∧
      ((NewFileTree.AddPath (nodePath [] (.mk "a\x00" {} []))
          (FileNode.mk "a\x00" {} []).data.fileInfo).2.1 = none) ∧
      ((NewFileTree.AddPath (nodePath [] (.mk "a\x00" {} []))
          (FileNode.mk "a\x00" {} []).data.fileInfo).2.2.isSome = true) ∧
      (stackGraft NewFileTree [] (.mk "a\x00" {} []) =
        ((NewFileTree.AddPath (nodePath [] (.mk "a\x00" {} []))
            (FileNode.mk "a\x00" {} []).data.fileInfo).1, .panicked) ∧
        (NewFileTree.Stack
            { Root := .mk "" {} [.mk "a\x00" {} []], Size := 1, FileSize := 0 }).2
          = .panicked) :=
  ⟨by decide, by decide, by decide,
    c10_stack_error_branch_panics NewFileTree [] (.mk "a\x00" {} [])
      (by decide) (by decide) (by decide)⟩

/-! ## Claim C2 -/

/-- C2: the opaque-directory semantics is not implemented.  The constant
`doubleWhiteoutPrefix` is declared (tree.go line 18) but never used:
`Stack` treats `.wh..wh..` as an ordinary whiteout, strips a single
`.wh.` prefix (leaving `.wh..`), tries to remove `/d/.wh..`, fails with
the path-not-found stacking error, and leaves `d`'s pre-existing
contents (`/d/x`) intact — instead of removing all of `d`'s contents as
the claim states. -/
theorem c2_opaque_whiteout_not_implemented :
    stripWhiteout doubleWhiteoutPrefix = ".wh.." ∧
    ((NewFileTree.AddPath "/d/x" {}).1.Stack
        (NewFileTree.AddPath "/d/.wh..wh.." {}).1).2
      = .err "cannot remove node /d/.wh..: path does not exist: /d/.wh.." ∧
    ((NewFileTree.AddPath "/d/x" {}).1.Stack
        (NewFileTree.AddPath "/d/.wh..wh.." {}).1).1
      = (NewFileTree.AddPath "/d/x" {}).1 ∧
    (((NewFileTree.AddPath "/d/x" {}).1.Stack
        (NewFileTree.AddPath "/d/.wh..wh.." {}).1).1.GetNode "/d/x").isOk = true := by
  refine ⟨by decide, by decide, by decide, by decide⟩

/-! ## Claim C3 -/

/-- C3 counterexample: in the claimed scenario `/a/c` (present only in
the lower tree) is never visited by `Compare`, which walks only the
upper tree, so its classification stays the unset sentinel — it is
not `Removed` as the claim states. -/
theorem c3_counterexample_lower_only_path_not_removed :
    ((((NewFileTree.AddPath "/a/b" { size := 10 }).1.AddPath "/a/c" {}).1.Compare
        (((NewFileTree.AddPath "/a/b" { size := 20 }).1.AddPath "/a/d" {}).1)).1.GetNode
          "/a/c").toOption.map (fun n => n.data.diffType) = some .Unset ∧
    ((((NewFileTree.AddPath "/a/b" { size := 10 }).1.AddPath "/a/c" {}).1.Compare
        (((NewFileTree.AddPath "/a/b" { size := 20 }).1.AddPath "/a/d" {}).1)).1.GetNode
          "/a/c").toOption.map (fun n => n.data.diffType) ≠ some .Removed := by
  refine ⟨by decide, by decide⟩

/-- C3 (amended): on the claimed trees, `Compare(upper)` classifies `/a`
Modified (ancestor of changed nodes), `/a/b` Modified (size changed),
and `/a/d` Added (created in the lower tree: present in the upper tree
only), while `/a/c` stays unclassified (`Unset`) because `Compare` never
visits lower-only paths; the call reports no error. -/
theorem c3_compare_classifications :
    (let r := (((NewFileTree.AddPath "/a/b" { size := 10 }).1.AddPath "/a/c" {}).1.Compare
        (((NewFileTree.AddPath "/a/b" { size := 20 }).1.AddPath "/a/d" {}).1))
     ((r.1.GetNode "/a").toOption.map (fun n => n.data.diffType) = some .Modified) ∧
       ((r.1.GetNode "/a/b").toOption.map (fun n => n.data.diffType) = some .Modified) ∧
       ((r.1.GetNode "/a/c").toOption.map (fun n => n.data.diffType) = some .Unset) ∧
       ((r.1.GetNode "/a/d").toOption.map (fun n => n.data.diffType) = some .Added) ∧
       (r.1.GetNode "/a/d").isOk = true ∧ r.2 = .cont) := by
  refine ⟨by decide, by decide, by decide, by decide, by decide, by decide⟩

/-! ## Claim C7 -/

/-- C7: `String(false)` on the tree containing exactly `/a`, `/a/b`,
`/x` (no node hidden or collapsed) renders one row per node in the order
`a`, `a/b`, `x`: `a` is a middle sibling (`├─`), `b` is indented one
ancestor level under the non-last sibling `a` (`│   ` continuation) and
is the last sibling (`└─`), `x` is the last root-level sibling (`└─`);
every row uses the expanded item glyph. -/
theorem c7_string_renders_rows_in_order :
    ((((NewFileTree.AddPath "/a" {}).1.AddPath "/a/b" {}).1.AddPath "/x" {}).1.String false)
      = "├─ ─ a\n│   └─ ─ b\n└─ ─ x\n" := by
  decide

/-! ## Unique sibling names are preserved by the tree mutations -/

theorem names_setChild (c : FileNode) (cs : List FileNode) :
    (setChild c cs).map FileNode.name = cs.map FileNode.name := by
  induction cs with
  | nil => rfl
  | cons d rest ih =>
    by_cases hd : d.name = c.name
    · simp [setChild, hd]
    · simp [setChild, hd, ih]

theorem nameFresh_congr (s : String) (cs cs' : List FileNode)
    (h : cs.map FileNode.name = cs'.map FileNode.name) :
    nameFresh s cs = nameFresh s cs' := by
  induction cs generalizing cs' with
  | nil =>
    cases cs' with
    | nil => rfl
    | cons d r => simp at h
  | cons c rest ih =>
    cases cs' with
    | nil => simp at h
    | cons d r =>
      simp only [List.map_cons, List.cons.injEq] at h
      simp [nameFresh, h.1, ih r h.2]

theorem lookupChild_none_iff_nameFresh (cs : List FileNode) (nm : String) :
    lookupChild cs nm = none ↔ nameFresh nm cs = true := by
  induction cs with
  | nil => simp [lookupChild, nameFresh]
  | cons c rest ih =>
    by_cases hc : c.name = nm
    · simp [lookupChild, nameFresh, hc]
    · simp [lookupChild, nameFresh, hc, ih, Ne.symm]

theorem uniqueNode_children (n : FileNode) :
    uniqueNode n = uniqueKids n.children := by
  cases n; rfl

theorem uniqueKids_mem_uniqueNode {cs : List FileNode} {c : FileNode}
    (hu : uniqueKids cs = true) (hm : c ∈ cs) : uniqueNode c = true := by
  induction cs with
  | nil => simp at hm
  | cons d rest ih =>
    simp only [uniqueKids, Bool.and_eq_true] at hu
    rcases List.mem_cons.mp hm with hm | hm
    · rw [hm]; exact hu.1.2
    · exact ih hu.2 hm

theorem lookupChild_mem {cs : List FileNode} {nm : String} {c : FileNode}
    (h : lookupChild cs nm = some c) : c ∈ cs := by
  induction cs with
  | nil => simp [lookupChild] at h
  | cons d rest ih =>
    by_cases hd : d.name = nm
    · simp [lookupChild, hd] at h
      rw [← h]; simp
    · simp only [lookupChild, hd, if_false] at h
      exact List.mem_cons_of_mem _ (ih h)

theorem uniqueKids_setChild {cs : List FileNode} (c : FileNode)
    (hu : uniqueKids cs = true) (hc : uniqueNode c = true) :
    uniqueKids (setChild c cs) = true := by
  induction cs with
  | nil => simp [setChild, uniqueKids]
  | cons d rest ih =>
    simp only [uniqueKids, Bool.and_eq_true] at hu
    obtain ⟨⟨hud, hun⟩, huk⟩ := hu
    by_cases hd : d.name = c.name
    · simp only [setChild, hd, if_pos rfl, uniqueKids, Bool.and_eq_true]
      refine ⟨⟨?_, hc⟩, huk⟩
      rw [← hd]; exact hud
    · simp only [setChild, hd, if_false, uniqueKids, Bool.and_eq_true]
      refine ⟨⟨?_, hun⟩, ih huk⟩
      rw [nameFresh_congr _ _ _ (names_setChild c rest)]
      exact hud

theorem nameFresh_insertChild {cs : List FileNode} (c : FileNode) (s : String)
    (hf : nameFresh s cs = true) (hne : ¬(c.name = s)) :
    nameFresh s (insertChild c cs) = true := by
  induction cs with
  | nil => simp [insertChild, nameFresh, hne]
  | cons d rest ih =>
    simp only [nameFresh, Bool.and_eq_true] at hf
    obtain ⟨hfd, hfr⟩ := hf
    by_cases hlt : nameLt c.name d.name = true
    · simp only [insertChild, hlt, if_pos rfl, nameFresh, Bool.and_eq_true]
      exact ⟨by simpa using hne, hfd, hfr⟩
    · simp only [insertChild, hlt, if_false, nameFresh, Bool.and_eq_true]
      exact ⟨hfd, ih hfr⟩

theorem uniqueKids_insertChild {cs : List FileNode} (c : FileNode)
    (hu : uniqueKids cs = true) (hc : uniqueNode c = true)
    (hf : nameFresh c.name cs = true) :
    uniqueKids (insertChild c cs) = true := by
  induction cs with
  | nil => simp [insertChild, uniqueKids, nameFresh, hc]
  | cons d rest ih =>
    simp only [uniqueKids, Bool.and_eq_true] at hu
    obtain ⟨⟨hud, hun⟩, huk⟩ := hu
    simp only [nameFresh, Bool.and_eq_true] at hf
    obtain ⟨hfd, hfr⟩ := hf
    have hfd2 : ¬(d.name = c.name) := by simpa using hfd
    by_cases hlt : nameLt c.name d.name = true
    · simp only [insertChild, hlt, if_pos rfl, uniqueKids, Bool.and_eq_true]
      refine ⟨⟨?_, hc⟩, ⟨hud, hun⟩, huk⟩
      simp only [nameFresh, Bool.and_eq_true]
      exact ⟨by simpa using hfd2, hfr⟩
    · simp only [insertChild, hlt, if_false, uniqueKids, Bool.and_eq_true]
      refine ⟨⟨?_, hun⟩, ih huk hfr⟩
      exact nameFresh_insertChild _ _ hud (fun h => hfd2 (by rw [h]))

theorem nameFresh_removeChildNamed {cs : List FileNode} (s nm : String)
    (hf : nameFresh s cs = true) :
    nameFresh s (removeChildNamed nm cs) = true := by
  induction cs with
  | nil => simp [removeChildNamed, nameFresh]
  | cons d rest ih =>
    simp only [nameFresh, Bool.and_eq_true] at hf
    by_cases hd : d.name = nm
    · simp only [removeChildNamed, hd, if_pos rfl]
      exact hf.2
    · simp only [removeChildNamed, hd, if_false, nameFresh, Bool.and_eq_true]
      exact ⟨hf.1, ih hf.2⟩

theorem uniqueKids_removeChildNamed {cs : List FileNode} (nm : String)
    (hu : uniqueKids cs = true) :
    uniqueKids (removeChildNamed nm cs) = true := by
  induction cs with
  | nil => simp [removeChildNamed, uniqueKids]
  | cons d rest ih =>
    simp only [uniqueKids, Bool.and_eq_true] at hu
    by_cases hd : d.name = nm
    · simp only [removeChildNamed, hd, if_pos rfl]
      exact hu.2
    · simp only [removeChildNamed, hd, if_false, uniqueKids, Bool.and_eq_true]
      exact ⟨⟨nameFresh_removeChildNamed _ _ hu.1.1, hu.1.2⟩, ih hu.2⟩

theorem uniqueNode_addSegs (segs : List String) :
    ∀ (n : FileNode) (d : FileInfo), uniqueNode n = true →
      uniqueNode (addSegs n segs d).1 = true := by
  induction segs with
  | nil => intro n d h; exact h
  | cons name rest ih =>
    intro n d hu
    rw [uniqueNode_children] at hu
    cases hlk : lookupChild n.children name with
    | some c =>
      have hcu : uniqueNode c = true := uniqueKids_mem_uniqueNode hu (lookupChild_mem hlk)
      have hcu2 : uniqueNode (if rest = [] then c.withPayload d else c) = true := by
        by_cases hr : rest = []
        · simp only [hr, if_pos rfl]
          rw [uniqueNode_children] at hcu ⊢
          simpa using hcu
        · simpa [hr] using hcu
      simp only [addSegs, hlk]
      rw [uniqueNode_children]
      simp only [FileNode.children_withChildren]
      exact uniqueKids_setChild _ hu (ih _ d hcu2)
    | none =>
      by_cases hv : invalidName name = true
      · simp only [addSegs, hlk, FileNode.AddChild, hv, if_pos rfl]
        rw [uniqueNode_children]; exact hu
      · simp only [Bool.not_eq_true] at hv
        have hchild : uniqueNode
            (if rest = [] then (FileNode.mk name { fileInfo := {} } []).withPayload d
             else FileNode.mk name { fileInfo := {} } []) = true := by
          by_cases hr : rest = [] <;> simp [hr, uniqueNode, uniqueKids, FileNode.withPayload]
        simp only [addSegs, hlk, AddChild_valid hv]
        rw [uniqueNode_children]
        simp only [FileNode.children_withChildren]
        apply uniqueKids_insertChild _ hu (ih _ d hchild)
        rw [← lookupChild_none_iff_nameFresh]
        have hname : (addSegs (if rest = []
            then (FileNode.mk name { fileInfo := {} } []).withPayload d
            else FileNode.mk name { fileInfo := {} } []) rest d).1.name = name := by
          rw [addSegs_name]
          by_cases hr : rest = [] <;> simp [hr]
        rw [hname]
        exact hlk

theorem removeSegs_name (segs : List String) :
    ∀ n : FileNode, (removeSegs n segs).name = n.name := by
  induction segs with
  | nil => intro n; rfl
  | cons name rest ih =>
    intro n
    cases rest with
    | nil => simp [removeSegs]
    | cons r rs =>
      cases hlk : lookupChild n.children name with
      | none => simp [removeSegs, hlk]
      | some c => simp [removeSegs, hlk]

theorem uniqueNode_removeSegs (segs : List String) :
    ∀ n : FileNode, uniqueNode n = true → uniqueNode (removeSegs n segs) = true := by
  induction segs with
  | nil => intro n h; exact h
  | cons name rest ih =>
    intro n hu
    rw [uniqueNode_children] at hu
    cases rest with
    | nil =>
      simp only [removeSegs]
      rw [uniqueNode_children]
      simp only [FileNode.children_withChildren]
      exact uniqueKids_removeChildNamed _ hu
    | cons r rs =>
      cases hlk : lookupChild n.children name with
      | none =>
        simp only [removeSegs, hlk]
        rw [uniqueNode_children]; exact hu
      | some c =>
        have hcu : uniqueNode c = true := uniqueKids_mem_uniqueNode hu (lookupChild_mem hlk)
        simp only [removeSegs, hlk]
        rw [uniqueNode_children]
        simp only [FileNode.children_withChildren]
        exact uniqueKids_setChild _ hu (ih _ hcu)

/-! ## Absence of a path is preserved by non-extending adds and by
removals, and established by removal of the path itself -/

theorem getSegs_withPayload (c : FileNode) (d : FileInfo) (s : String) (q : List String) :
    getSegs (c.withPayload d) (s :: q) = getSegs c (s :: q) := by
  simp [getSegs]

theorem getSegs_addSegs_absent (p : List String) :
    ∀ (n : FileNode) (d : FileInfo) (q : List String), ¬(q <+: p) →
      getSegs n q = none → getSegs (addSegs n p d).1 q = none := by
  induction p with
  | nil => intro n d q _ hq; exact hq
  | cons a p2 ih =>
    intro n d q hpre hq
    cases q with
    | nil => simp [getSegs] at hq
    | cons s q2 =>
      cases hlk : lookupChild n.children a with
      | some c =>
        have hr1name : (addSegs (if p2 = [] then c.withPayload d else c) p2 d).1.name = a := by
          rw [addSegs_name]
          by_cases hp2 : p2 = [] <;> simp [hp2, lookupChild_name hlk]
        by_cases hs : s = a
        · subst hs
          have hq2pre : ¬(q2 <+: p2) := by
            intro hc
            exact hpre (List.cons_prefix_cons.mpr ⟨rfl, hc⟩)
          have hq2ne : q2 ≠ [] := by
            intro hc
            subst hc
            exact hpre (List.cons_prefix_cons.mpr ⟨rfl, List.nil_prefix⟩)
          simp only [getSegs, hlk] at hq
          simp only [addSegs, hlk, getSegs, FileNode.children_withChildren]
          rw [lookupChild_setChild_self hlk _ hr1name]
          apply ih _ d _ hq2pre
          have hcq : getSegs (if p2 = [] then c.withPayload d else c) q2 = getSegs c q2 := by
            by_cases hp2 : p2 = []
            · rw [if_pos hp2]
              cases q2 with
              | nil => exact absurd rfl hq2ne
              | cons x q3 => exact getSegs_withPayload c d x q3
            · rw [if_neg hp2]
          rw [hcq]
          exact hq
        · simp only [addSegs, hlk, getSegs, FileNode.children_withChildren]
          rw [lookupChild_setChild_other _ (by rw [hr1name]; exact hs)]
          simpa [getSegs] using hq
      | none =>
        by_cases hv : invalidName a = true
        · simp only [addSegs, hlk, FileNode.AddChild, hv, if_pos rfl]
          exact hq
        · simp only [Bool.not_eq_true] at hv
          have hr1name : (addSegs (if p2 = []
              then (FileNode.mk a { fileInfo := {} } []).withPayload d
              else FileNode.mk a { fileInfo := {} } []) p2 d).1.name = a := by
            rw [addSegs_name]
            by_cases hp2 : p2 = [] <;> simp [hp2]
          simp only [addSegs, hlk, AddChild_valid hv]
          by_cases hs : s = a
          · subst hs
            have hq2pre : ¬(q2 <+: p2) := by
              intro hc
              exact hpre (List.cons_prefix_cons.mpr ⟨rfl, hc⟩)
            have hq2ne : q2 ≠ [] := by
              intro hc
              subst hc
              exact hpre (List.cons_prefix_cons.mpr ⟨rfl, List.nil_prefix⟩)
            simp only [getSegs, FileNode.children_withChildren]
            rw [lookupChild_insertChild_self _ hr1name hlk]
            apply ih _ d _ hq2pre
            cases q2 with
            | nil => exact absurd rfl hq2ne
            | cons x q3 =>
              by_cases hp2 : p2 = []
              · rw [if_pos hp2]
                simp [getSegs, FileNode.withPayload, lookupChild]
              · rw [if_neg hp2]
                simp [getSegs, lookupChild]
          · simp only [getSegs, FileNode.children_withChildren]
            rw [lookupChild_insertChild_other _ (by rw [hr1name]; exact hs)]
            simpa [getSegs] using hq

theorem lookupChild_removeChildNamed_none {cs : List FileNode} {s : String} (nm : String)
    (h : lookupChild cs s = none) :
    lookupChild (removeChildNamed nm cs) s = none := by
  induction cs with
  | nil => simp [removeChildNamed, lookupChild]
  | cons d rest ih =>
    by_cases hd : d.name = s
    · simp [lookupChild, hd] at h
    · simp only [lookupChild, hd, if_false] at h
      by_cases hn : d.name = nm
      · simp only [removeChildNamed, hn, if_pos rfl]
        exact h
      · simp only [removeChildNamed, hn, if_false, lookupChild, hd, if_false]
        exact ih h

theorem lookupChild_removeChildNamed_other {cs : List FileNode} {s : String} (nm : String)
    (h : s ≠ nm) :
    lookupChild (removeChildNamed nm cs) s = lookupChild cs s := by
  induction cs with
  | nil => simp [removeChildNamed]
  | cons d rest ih =>
    by_cases hn : d.name = nm
    · have hd : ¬(d.name = s) := by rw [hn]; exact fun hc => h hc.symm
      have hns : ¬(nm = s) := fun hc => h hc.symm
      simp [removeChildNamed, hn, lookupChild, hd, hns]
    · simp only [removeChildNamed, hn, if_false, lookupChild]
      by_cases hd : d.name = s
      · simp [hd]
      · simp [hd, ih]

theorem lookupChild_removeChildNamed_self {cs : List FileNode} (nm : String)
    (hu : uniqueKids cs = true) :
    lookupChild (removeChildNamed nm cs) nm = none := by
  induction cs with
  | nil => simp [removeChildNamed, lookupChild]
  | cons d rest ih =>
    simp only [uniqueKids, Bool.and_eq_true] at hu
    by_cases hn : d.name = nm
    · simp only [removeChildNamed, hn, if_pos rfl]
      rw [lookupChild_none_iff_nameFresh, ← hn]
      exact hu.1.1
    · simp only [removeChildNamed, hn, if_false, lookupChild, hn, if_false]
      exact ih hu.2

theorem getSegs_removeSegs_absent (segs : List String) :
    ∀ (n : FileNode) (q : List String), uniqueNode n = true →
      getSegs n q = none → getSegs (removeSegs n segs) q = none := by
  induction segs with
  | nil => intro n q _ hq; exact hq
  | cons name rest ih =>
    intro n q hu hq
    rw [uniqueNode_children] at hu
    cases q with
    | nil => simp [getSegs] at hq
    | cons s q2 =>
      cases rest with
      | nil =>
        simp only [removeSegs, getSegs, FileNode.children_withChildren]
        cases hlk : lookupChild n.children s with
        | none =>
          rw [lookupChild_removeChildNamed_none name hlk]
        | some c0 =>
          by_cases hs : s = name
          · subst hs
            rw [lookupChild_removeChildNamed_self _ hu]
          · rw [lookupChild_removeChildNamed_other name hs, hlk]
            simpa [getSegs, hlk] using hq
      | cons r rs =>
        cases hlk : lookupChild n.children name with
        | none => simpa [removeSegs, hlk] using hq
        | some c =>
          simp only [removeSegs, hlk, getSegs, FileNode.children_withChildren]
          by_cases hs : s = name
          · subst hs
            rw [lookupChild_setChild_self hlk _ (by rw [removeSegs_name]; exact lookupChild_name hlk)]
            simp only [getSegs, hlk] at hq
            exact ih c q2 (uniqueKids_mem_uniqueNode hu (lookupChild_mem hlk)) hq
          · have hname2 : ¬(s = (removeSegs c (r :: rs)).name) := by
              rw [removeSegs_name, lookupChild_name hlk]
              exact hs
            rw [lookupChild_setChild_other _ hname2]
            simpa [getSegs] using hq

theorem getSegs_removeSegs_self (segs : List String) :
    ∀ n : FileNode, uniqueNode n = true → segs ≠ [] →
      getSegs (removeSegs n segs) segs = none := by
  induction segs with
  | nil => intro n _ h; exact absurd rfl h
  | cons name rest ih =>
    intro n hu _
    rw [uniqueNode_children] at hu
    cases rest with
    | nil =>
      simp only [removeSegs, getSegs, FileNode.children_withChildren]
      rw [lookupChild_removeChildNamed_self _ hu]
    | cons r rs =>
      cases hlk : lookupChild n.children name with
      | none => simp [removeSegs, hlk, getSegs]
      | some c =>
        simp only [removeSegs, hlk, getSegs, FileNode.children_withChildren]
        rw [lookupChild_setChild_self hlk _ (by rw [removeSegs_name]; exact lookupChild_name hlk)]
        exact ih c (uniqueKids_mem_uniqueNode hu (lookupChild_mem hlk)) (by simp)

/-! ## Round trip: splitting a node's path string recovers its segments -/

theorem splitSlashChars_no_slash (s : List Char) (h : '/' ∉ s) : splitSlashChars s = [s] := by
  induction s with
  | nil => rfl
  | cons c rest ih =>
    have hc : ¬(c = '/') := fun hc => h (hc ▸ List.mem_cons_self c rest)
    have hr : '/' ∉ rest := fun hm => h (List.mem_cons_of_mem c hm)
    simp [splitSlashChars, hc, ih hr]

theorem splitSlashChars_append (s t : List Char) (h : '/' ∉ s) :
    splitSlashChars (s ++ '/' :: t) = s :: splitSlashChars t := by
  induction s with
  | nil => simp [splitSlashChars]
  | cons c rest ih =>
    have hc : ¬(c = '/') := fun hc => h (hc ▸ List.mem_cons_self c rest)
    have hr : '/' ∉ rest := fun hm => h (List.mem_cons_of_mem c hm)
    simp only [List.cons_append, splitSlashChars, hc, if_false, List.append_eq]
    rw [ih hr]

theorem joinChars_ne_nil (pieces : List (List Char)) (hne : pieces ≠ [])
    (h : ∀ p ∈ pieces, p ≠ []) : joinChars pieces ≠ [] := by
  cases pieces with
  | nil => exact absurd rfl hne
  | cons p rest =>
    cases rest with
    | nil => exact h p (by simp)
    | cons q rs =>
      simp only [joinChars]
      intro hc
      exact h p (by simp) (List.append_eq_nil.mp hc).1

theorem joinChars_split (pieces : List (List Char)) (hne : pieces ≠ [])
    (h : ∀ p ∈ pieces, '/' ∉ p) : splitSlashChars (joinChars pieces) = pieces := by
  induction pieces with
  | nil => exact absurd rfl hne
  | cons p rest ih =>
    cases rest with
    | nil => simpa [joinChars] using splitSlashChars_no_slash p (h p (by simp))
    | cons q rs =>
      simp only [joinChars]
      rw [splitSlashChars_append _ _ (h p (by simp))]
      rw [ih (by simp) (fun x hx => h x (List.mem_cons_of_mem p hx))]

theorem headq_append (p t : List Char) (hp : p ≠ []) : (p ++ t).head? = p.head? := by
  cases p with
  | nil => exact absurd rfl hp
  | cons c rest => simp

theorem getLastq_append_cons (l : List Char) (x : Char) (t : List Char) :
    (l ++ x :: t).getLast? = (x :: t).getLast? := by
  induction l with
  | nil => simp
  | cons c rest ih =>
    rw [List.cons_append, getLastq_cons c (by simp), ih]

theorem joinChars_head_ne_slash (p : List Char) (rest : List (List Char))
    (hp : p ≠ []) (hs : '/' ∉ p) : (joinChars (p :: rest)).head? ≠ some '/' := by
  have hh : (joinChars (p :: rest)).head? = p.head? := by
    cases rest with
    | nil => rfl
    | cons q rs => simp only [joinChars]; exact headq_append p _ hp
  rw [hh]
  intro hc
  exact hs (List.mem_of_mem_head? (by simp [hc]))

theorem joinChars_getLast_ne_slash (pieces : List (List Char))
    (h : ∀ p ∈ pieces, '/' ∉ p ∧ p ≠ []) : (joinChars pieces).getLast? ≠ some '/' := by
  induction pieces with
  | nil => simp [joinChars]
  | cons p rest ih =>
    cases rest with
    | nil =>
      simp only [joinChars]
      intro hc
      exact (h p (by simp)).1 (List.mem_of_mem_getLast? (by simp [hc]))
    | cons q rs =>
      simp only [joinChars]
      rw [getLastq_append_cons, getLastq_cons '/'
        (joinChars_ne_nil _ (by simp) (fun x hx => (h x (List.mem_cons_of_mem p hx)).2))]
      exact ih (fun x hx => h x (List.mem_cons_of_mem p hx))

theorem dropWhile_slash_id (cs : List Char) (h : cs.head? ≠ some '/') :
    cs.dropWhile (· = '/') = cs := by
  cases cs with
  | nil => rfl
  | cons c rest =>
    have hc : ¬(c = '/') := by simpa using h
    simp [List.dropWhile, hc]

theorem trimSlashChars_id (cs : List Char) (h1 : cs.head? ≠ some '/')
    (h2 : cs.getLast? ≠ some '/') : trimSlashChars cs = cs := by
  unfold trimSlashChars
  rw [dropWhile_slash_id cs h1, dropWhile_slash_id _ (by rwa [List.head?_reverse]),
    List.reverse_reverse]

theorem effSegs_pathString (anc : List String) (last : String)
    (hclean : ∀ s ∈ anc ++ [last], cleanName s = true) :
    effSegs (pathString anc last) = anc ++ [last] := by
  have hpieces : ∀ p ∈ (anc ++ [last]).map String.data, '/' ∉ p ∧ p ≠ [] := by
    intro p hp
    rw [List.mem_map] at hp
    obtain ⟨s, hs, hsp⟩ := hp
    have hc := hclean s hs
    simp only [cleanName, Bool.and_eq_true, decide_eq_true_eq, Bool.not_eq_true] at hc
    constructor
    · rw [← hsp]
      intro hm
      have : s.data.contains '/' = true := by
        simpa [List.contains] using hm
      rw [this] at hc
      exact absurd hc.2 (by simp)
    · rw [← hsp]
      intro hd
      exact hc.1 (String.ext hd)
  have hnempty : (anc ++ [last]).map String.data ≠ [] := by simp
  have hjoined : joinChars ((anc ++ [last]).map String.data) ≠ [] :=
    joinChars_ne_nil _ hnempty (fun p hp => (hpieces p hp).2)
  have hdata : (pathString anc last).data =
      '/' :: joinChars ((anc ++ [last]).map String.data) := rfl
  have hhead : (joinChars ((anc ++ [last]).map String.data)).head? ≠ some '/' := by
    cases hm : (anc ++ [last]).map String.data with
    | nil => exact absurd hm hnempty
    | cons p rest =>
      rw [← hm]
      rw [hm]
      exact joinChars_head_ne_slash p rest (hpieces p (by rw [hm]; simp)).2
        (hpieces p (by rw [hm]; simp)).1
  have hlast2 : (joinChars ((anc ++ [last]).map String.data)).getLast? ≠ some '/' :=
    joinChars_getLast_ne_slash _ hpieces
  have htrim : trimSlashChars ((pathString anc last).data) =
      joinChars ((anc ++ [last]).map String.data) := by
    rw [hdata]
    unfold trimSlashChars
    rw [List.dropWhile_cons]
    rw [if_pos (by simp)]
    rw [dropWhile_slash_id _ hhead, dropWhile_slash_id _ (by rwa [List.head?_reverse]),
      List.reverse_reverse]
  have hsplit : splitPath (pathString anc last) = anc ++ [last] := by
    unfold splitPath
    rw [htrim, joinChars_split _ hnempty (fun p hp => (hpieces p hp).1)]
    rw [List.map_map]
    have : ∀ s ∈ anc ++ [last],
        ((fun cs => (⟨cs⟩ : String)) ∘ String.data) s = id s := fun s _ => rfl
    rw [List.map_congr_left this, List.map_id]
  unfold effSegs
  rw [hsplit, List.filter_eq_self]
  intro s hs
  have hc := hclean s hs
  simp only [cleanName, Bool.and_eq_true, decide_eq_true_eq] at hc
  simpa using hc.1

/-! ## Whiteout names -/

theorem stripWhiteout_whiteout (foo : String) :
    stripWhiteout (whiteoutPrefix ++ foo) = foo := by
  unfold stripWhiteout
  rw [String.data_append]
  rw [if_pos (List.isPrefixOf_iff_prefix.mpr (List.prefix_append _ _))]
  rw [List.drop_left]

theorem isWhiteout_of_prefix_name {n : FileNode} {foo : String}
    (hname : n.name = whiteoutPrefix ++ foo) : n.IsWhiteout = true := by
  rw [FileNode.IsWhiteout, hname, String.data_append]
  exact List.isPrefixOf_iff_prefix.mpr (List.prefix_append _ _)

theorem stripWhiteout_of_not_whiteout {s : String}
    (h : whiteoutPrefix.data.isPrefixOf s.data = false) : stripWhiteout s = s := by
  unfold stripWhiteout
  rw [h]
  simp

theorem cleanName_of_whiteout {foo : String} (h : cleanName (whiteoutPrefix ++ foo) = true)
    (hfoo : foo ≠ "") : cleanName foo = true := by
  simp only [cleanName, Bool.and_eq_true, decide_eq_true_eq, Bool.not_eq_true] at h ⊢
  refine ⟨by simpa using hfoo, ?_⟩
  rcases h with ⟨_, h2⟩
  rw [String.data_append] at h2
  cases hc : foo.data.contains '/' with
  | false => rfl
  | true =>
    exfalso
    have hmem : '/' ∈ foo.data := by simpa [List.contains] using hc
    have : '/' ∈ whiteoutPrefix.data ++ foo.data := List.mem_append_right _ hmem
    have : (whiteoutPrefix.data ++ foo.data).contains '/' = true := by
      simpa [List.contains] using this
    rw [this] at h2
    exact absurd h2 (by simp)

/-! ## Clean names of every visited pair -/

mutual
theorem visitOrderNode_clean (anc : List String) :
    (n : FileNode) → cleanNode n = true → (∀ s ∈ anc, cleanName s = true) →
      ∀ pr ∈ visitOrderNode anc n,
        (∀ s ∈ pr.1, cleanName s = true) ∧ cleanName pr.2.name = true
  | .mk name data cs => by
    intro hc hanc pr hpr
    simp only [cleanNode, Bool.and_eq_true] at hc
    rw [visitOrderNode] at hpr
    rcases List.mem_append.mp hpr with hpr | hpr
    · exact visitOrderKids_clean (anc ++ [name]) cs hc.2
        (by
          intro s hs
          rcases List.mem_append.mp hs with hs | hs
          · exact hanc s hs
          · rw [List.mem_singleton.mp hs]; exact hc.1) pr hpr
    · rw [List.mem_singleton.mp hpr]
      exact ⟨hanc, hc.1⟩
theorem visitOrderKids_clean (anc : List String) :
    (cs : List FileNode) → cleanKids cs = true → (∀ s ∈ anc, cleanName s = true) →
      ∀ pr ∈ visitOrderKids anc cs,
        (∀ s ∈ pr.1, cleanName s = true) ∧ cleanName pr.2.name = true
  | [] => by intro _ _ pr hpr; simp [visitOrderKids] at hpr
  | c :: rest => by
    intro hc hanc pr hpr
    simp only [cleanKids, Bool.and_eq_true] at hc
    rw [visitOrderKids] at hpr
    rcases List.mem_append.mp hpr with hpr | hpr
    · exact visitOrderNode_clean anc c hc.1 hanc pr hpr
    · exact visitOrderKids_clean anc rest hc.2 hanc pr hpr
end

/-! ## The stacking fold preserves uniqueness and path absence -/

theorem stackGraft_unique (t : FileTree) (anc : List String) (n : FileNode)
    (hu : uniqueNode t.Root = true) : uniqueNode (stackGraft t anc n).1.Root = true := by
  rw [stackGraft]
  by_cases hw : n.IsWhiteout = true
  · rw [if_pos hw, RemovePath_eq_removeSegs]
    cases hg : getSegs t.Root (effSegs (nodePath anc n)) with
    | none => exact hu
    | some node =>
      cases he : effSegs (nodePath anc n) with
      | nil => exact hu
      | cons a b =>
        dsimp only
        exact uniqueNode_removeSegs _ _ hu
  · rw [if_neg hw, AddPath_eq_addSegs]
    rcases h2 : (addSegs t.Root (effSegs (nodePath anc n)) n.data.fileInfo).2.2 with
      ⟨nodeopt, erropt⟩
    have htree : ∀ sig : VisitSignal,
        (({ t with
            Root := (addSegs t.Root (effSegs (nodePath anc n)) n.data.fileInfo).1
            Size := t.Size +
              (addSegs t.Root (effSegs (nodePath anc n)) n.data.fileInfo).2.1 } :
          FileTree), sig).1.Root =
          (addSegs t.Root (effSegs (nodePath anc n)) n.data.fileInfo).1 := fun _ => rfl
    cases erropt with
    | none =>
      simp only [h2]
      exact uniqueNode_addSegs _ _ _ hu
    | some e =>
      simp only [h2]
      cases nodeopt with
      | none => exact uniqueNode_addSegs _ _ _ hu
      | some m => exact uniqueNode_addSegs _ _ _ hu

theorem foldAbort_stackGraft_unique (l : List (List String × FileNode)) :
    ∀ t : FileTree, uniqueNode t.Root = true →
      uniqueNode (foldAbort stackGraft t l).1.Root = true := by
  induction l with
  | nil => intro t h; exact h
  | cons pr rest ih =>
    intro t hu
    simp only [foldAbort]
    rcases hg : stackGraft t pr.1 pr.2 with ⟨t2, sig⟩
    have h2 : uniqueNode t2.Root = true := by
      have := stackGraft_unique t pr.1 pr.2 hu
      rw [hg] at this
      exact this
    cases sig with
    | cont => exact ih t2 h2
    | err m => exact h2
    | panicked => exact h2

theorem stackGraft_absent (q : List String) (t : FileTree) (anc : List String) (m : FileNode)
    (t2 : FileTree) (hg : stackGraft t anc m = (t2, .cont))
    (hu : uniqueNode t.Root = true)
    (hcl : (∀ s ∈ anc, cleanName s = true) ∧ cleanName m.name = true)
    (hnoext : m.IsWhiteout = false → q.isPrefixOf (anc ++ [m.name]) = false)
    (habs : getSegs t.Root q = none) : getSegs t2.Root q = none := by
  rw [stackGraft] at hg
  by_cases hw : m.IsWhiteout = true
  · rw [if_pos hw, RemovePath_eq_removeSegs] at hg
    cases hge : getSegs t.Root (effSegs (nodePath anc m)) with
    | none =>
      rw [hge] at hg
      simp at hg
    | some node =>
      rw [hge] at hg
      cases he : effSegs (nodePath anc m) with
      | nil =>
        rw [he] at hg
        simp at hg
      | cons a b =>
        rw [he] at hg
        dsimp only at hg
        have ht2 : t2.Root = removeSegs t.Root (a :: b) := by
          rw [← (Prod.mk.injEq _ _ _ _).mp hg |>.1]
        rw [ht2]
        exact getSegs_removeSegs_absent _ _ _ hu habs
  · rw [if_neg hw, AddPath_eq_addSegs] at hg
    have hwf : m.IsWhiteout = false := by
      cases hv : m.IsWhiteout with
      | false => rfl
      | true => exact absurd hv hw
    have hstrip : stripWhiteout m.name = m.name := by
      apply stripWhiteout_of_not_whiteout
      rw [FileNode.IsWhiteout] at hwf
      exact hwf
    have heff : effSegs (nodePath anc m) = anc ++ [m.name] := by
      rw [nodePath, hstrip]
      apply effSegs_pathString
      intro s hs
      rcases List.mem_append.mp hs with hs | hs
      · exact hcl.1 s hs
      · rw [List.mem_singleton.mp hs]; exact hcl.2
    rcases h2 : (addSegs t.Root (effSegs (nodePath anc m)) m.data.fileInfo).2.2 with
      ⟨nodeopt, erropt⟩
    rw [h2] at hg
    cases erropt with
    | some e =>
      cases nodeopt with
      | none => simp at hg
      | some mm => simp at hg
    | none =>
      dsimp only at hg
      have ht2 : t2.Root = (addSegs t.Root (effSegs (nodePath anc m)) m.data.fileInfo).1 := by
        rw [← (Prod.mk.injEq _ _ _ _).mp hg |>.1]
      rw [ht2, heff]
      apply getSegs_addSegs_absent _ _ _ _ ?_ habs
      intro hpre
      have : q.isPrefixOf (anc ++ [m.name]) = true := List.isPrefixOf_iff_prefix.mpr hpre
      rw [hnoext hwf] at this
      exact absurd this (by simp)

theorem foldAbort_stackGraft_absent (q : List String) (l : List (List String × FileNode)) :
    ∀ (t tf : FileTree), foldAbort stackGraft t l = (tf, .cont) →
      uniqueNode t.Root = true →
      (∀ pr ∈ l, (∀ s ∈ pr.1, cleanName s = true) ∧ cleanName pr.2.name = true) →
      (∀ pr ∈ l, pr.2.IsWhiteout = false →
        q.isPrefixOf (pr.1 ++ [pr.2.name]) = false) →
      getSegs t.Root q = none → getSegs tf.Root q = none := by
  induction l with
  | nil =>
    intro t tf hf _ _ _ habs
    simp only [foldAbort] at hf
    rw [← ((Prod.mk.injEq _ _ _ _).mp hf).1]
    exact habs
  | cons pr rest ih =>
    intro t tf hf hu hcl hnoext habs
    simp only [foldAbort] at hf
    rcases hg : stackGraft t pr.1 pr.2 with ⟨t2, sig⟩
    rw [hg] at hf
    cases sig with
    | cont =>
      have h2 : getSegs t2.Root q = none :=
        stackGraft_absent q t pr.1 pr.2 t2 hg hu (hcl pr (by simp))
          (hnoext pr (by simp)) habs
      have hu2 : uniqueNode t2.Root = true := by
        have := stackGraft_unique t pr.1 pr.2 hu
        rw [hg] at this
        exact this
      exact ih t2 tf hf hu2 (fun x hx => hcl x (List.mem_cons_of_mem _ hx))
        (fun x hx => hnoext x (List.mem_cons_of_mem _ hx)) h2
    | err m => simp at hf
    | panicked => simp at hf

/-! ## Claim C1 -/

/-- C1 counterexample: the claim quantifies over every upper tree
containing the whiteout, but an upper tree may also contain a
non-whiteout entry at the shadowed path.  Siblings are visited in sorted
order and `.wh.foo` sorts before `foo`, so the removal happens first and
the add then re-creates `/foo`: `Stack` succeeds and the merged tree
still contains `foo`. -/
theorem c1_counterexample_upper_readds_path :
    (((NewFileTree.AddPath "/foo" {}).1.Stack
        ((NewFileTree.AddPath "/.wh.foo" {}).1.AddPath "/foo" {}).1).2 = .cont) ∧
      ((((NewFileTree.AddPath "/foo" {}).1.Stack
          ((NewFileTree.AddPath "/.wh.foo" {}).1.AddPath "/foo" {}).1).1.GetNode
            "/foo").isOk = true) := by
  refine ⟨by decide, by decide⟩

/-- C1 (amended): for every lower tree (with the children-map invariant
of unique sibling names) containing the path `dir/foo` and every upper
tree (with usable entry names) containing the whiteout entry `.wh.foo`
at the corresponding location `dir`, if `Stack(upper)` completes without
error and no non-whiteout node of `upper` resolves to `dir/foo` or to a
path below it, then the merged tree no longer contains `dir/foo`: the
whiteout's graft strips the prefix, removes the shadowed path, and no
later graft re-creates it. -/
theorem c1_stack_whiteout_removes_shadowed
    (lower upper merged : FileTree) (dir : List String) (foo : String) (wh : FileNode)
    (hclean : cleanKids upper.Root.children = true)
    (hunique : uniqueNode lower.Root = true)
    (hfoo : foo ≠ "")
    (hmem : (dir, wh) ∈ visitOrderKids [] upper.Root.children)
    (hname : wh.name = whiteoutPrefix ++ foo)
    (hlow : (lower.GetNode (pathString dir foo)).isOk = true)
    (hstack : lower.Stack upper = (merged, .cont))
    (hnoadd : ∀ pr ∈ visitOrderKids [] upper.Root.children, pr.2.IsWhiteout = false →
      (dir ++ [foo]).isPrefixOf (pr.1 ++ [pr.2.name]) = false) :
    (merged.GetNode (pathString dir foo)).isOk = false := by
  have hpair := visitOrderKids_clean [] upper.Root.children hclean (by simp) _ hmem
  have hfooclean : cleanName foo = true := by
    apply cleanName_of_whiteout _ hfoo
    rw [← hname]
    exact hpair.2
  have hcleanlist : ∀ s ∈ dir ++ [foo], cleanName s = true := by
    intro s hs
    rcases List.mem_append.mp hs with hs | hs
    · exact hpair.1 s hs
    · rw [List.mem_singleton.mp hs]; exact hfooclean
  have heff : effSegs (pathString dir foo) = dir ++ [foo] :=
    effSegs_pathString dir foo hcleanlist
  rw [FileTree.Stack, FileTree.VisitDepthChildFirst, visitKidsDCF_eq_foldAbort] at hstack
  obtain ⟨l1, l2, hL⟩ := List.append_of_mem hmem
  rw [hL, foldAbort_append] at hstack
  rcases h1 : foldAbort stackGraft lower l1 with ⟨t1, sig1⟩
  rw [h1] at hstack
  cases sig1 with
  | err m => simp at hstack
  | panicked => simp at hstack
  | cont =>
    dsimp only at hstack
    simp only [foldAbort] at hstack
    rcases hg : stackGraft t1 dir wh with ⟨t2, sig2⟩
    rw [hg] at hstack
    cases sig2 with
    | err m => simp at hstack
    | panicked => simp at hstack
    | cont =>
      dsimp only at hstack
      have hu1 : uniqueNode t1.Root = true := by
        have := foldAbort_stackGraft_unique l1 lower hunique
        rw [h1] at this
        exact this
      have hw : wh.IsWhiteout = true := isWhiteout_of_prefix_name hname
      have hpathwh : nodePath dir wh = pathString dir foo := by
        rw [nodePath, hname, stripWhiteout_whiteout]
      rw [stackGraft, if_pos hw, hpathwh, RemovePath_eq_removeSegs, heff] at hg
      cases hge : getSegs t1.Root (dir ++ [foo]) with
      | none =>
        rw [hge] at hg
        simp at hg
      | some node =>
        rw [hge] at hg
        cases hd : dir ++ [foo] with
        | nil => simp at hd
        | cons a b =>
          rw [hd] at hg
          dsimp only at hg
          have ht2 : t2.Root = removeSegs t1.Root (a :: b) := by
            rw [← ((Prod.mk.injEq _ _ _ _).mp hg).1]
          have habs2 : getSegs t2.Root (dir ++ [foo]) = none := by
            rw [ht2, hd]
            exact getSegs_removeSegs_self (a :: b) t1.Root hu1 (by simp)
          have hu2 : uniqueNode t2.Root = true := by
            rw [ht2]
            exact uniqueNode_removeSegs _ _ hu1
          have habsf : getSegs merged.Root (dir ++ [foo]) = none := by
            apply foldAbort_stackGraft_absent (dir ++ [foo]) l2 t2 merged hstack hu2
            · intro pr hpr
              exact visitOrderKids_clean [] upper.Root.children hclean (by simp) pr
                (by rw [hL]; exact List.mem_append_right _ (List.mem_cons_of_mem _ hpr))
            · intro pr hpr
              exact hnoadd pr
                (by rw [hL]; exact List.mem_append_right _ (List.mem_cons_of_mem _ hpr))
            · exact habs2
          rw [GetNode_eq_getSegs, heff, habsf]
          rfl

/-- C1 witness: lower `{/foo}`, upper `{/.wh.foo}` — the amended claim's
hypotheses hold and the merged tree no longer contains `/foo`. -/
theorem c1_stack_whiteout_removes_shadowed_witness :
    (cleanKids (NewFileTree.AddPath "/.wh.foo" {}).1.Root.children = true) ∧
      (uniqueNode (NewFileTree.AddPath "/foo" {}).1.Root = true) ∧
      ("foo" ≠ "") ∧
      (([], FileNode.mk ".wh.foo" {} []) ∈
        visitOrderKids [] (NewFileTree.AddPath "/.wh.foo" {}).1.Root.children) ∧
      ((FileNode.mk ".wh.foo" {} [] : FileNode).name = whiteoutPrefix ++ "foo") ∧
      (((NewFileTree.AddPath "/foo" {}).1.GetNode (pathString [] "foo")).isOk = true) ∧
      ((NewFileTree.AddPath "/foo" {}).1.Stack (NewFileTree.AddPath "/.wh.foo" {}).1 =
        (((NewFileTree.AddPath "/foo" {}).1.Stack
          (NewFileTree.AddPath "/.wh.foo" {}).1).1, .cont)) ∧
      (∀ pr ∈ visitOrderKids [] (NewFileTree.AddPath "/.wh.foo" {}).1.Root.children,
        pr.2.IsWhiteout = false →
          (([] : List String) ++ ["foo"]).isPrefixOf (pr.1 ++ [pr.2.name]) = false) ∧
      ((((NewFileTree.AddPath "/foo" {}).1.Stack
          (NewFileTree.AddPath "/.wh.foo" {}).1).1.GetNode
            (pathString [] "foo")).isOk = false) :=
  ⟨by decide, by decide, by decide, by decide, by decide, by decide, by decide, by decide,
    c1_stack_whiteout_removes_shadowed
      (NewFileTree.AddPath "/foo" {}).1
      (NewFileTree.AddPath "/.wh.foo" {}).1
      ((NewFileTree.AddPath "/foo" {}).1.Stack (NewFileTree.AddPath "/.wh.foo" {}).1).1
      [] "foo" (.mk ".wh.foo" {} [])
      (by decide) (by decide) (by decide) (by decide) (by decide) (by decide) (by decide)
      (by decide)⟩

/-! ## Rendering: the worklist loop visits exactly the depth-first
expansion of the visible nodes -/

theorem mkChildParamsP_map_snd (pr : List String × RenderParams) :
    (mkChildParamsP pr).map Prod.snd = mkChildParams pr.2 := by
  rw [mkChildParamsP, List.map_map]
  exact List.map_id _

theorem renderLoopP_map_snd (startRow : Nat) :
    ∀ (rem : Nat) (aps : List (List String × RenderParams)) (row : Nat),
      (renderLoopP startRow aps rem row).map Prod.snd =
        renderLoop startRow (aps.map Prod.snd) rem row := by
  intro rem
  induction rem with
  | zero =>
    intro aps row
    cases aps with
    | nil => rfl
    | cons pr rest => rfl
  | succ r ih =>
    intro aps row
    cases aps with
    | nil => rfl
    | cons pr rest =>
      simp only [renderLoopP, renderLoop, List.map_cons, List.map_append]
      rw [ih, List.map_append, mkChildParamsP_map_snd]
      by_cases hrow : startRow ≤ row
      · simp [hrow]
      · simp [hrow]

theorem expandP_unfold (pr : List String × RenderParams) :
    expandP pr = pr :: (mkChildParamsP pr).flatMap expandP := by
  rw [expandP]
  congr 1
  have h : ∀ l : List (List String × RenderParams),
      l.attach.flatMap (fun q => expandP q.1) = l.flatMap expandP := by
    intro l
    calc l.attach.flatMap (fun q => expandP q.1)
        = (l.attach.map Subtype.val).flatMap expandP :=
          (List.flatMap_map Subtype.val expandP l.attach).symm
      _ = l.flatMap expandP := by rw [List.attach_map_subtype_val]
  exact h _

theorem expandP_length (pr : List String × RenderParams) :
    (expandP pr).length =
      1 + ((mkChildParamsP pr).map (fun q => (expandP q).length)).sum := by
  rw [expandP_unfold]
  simp only [List.length_cons]
  have : ∀ (l : List (List String × RenderParams)),
      (l.flatMap expandP).length = (l.map (fun q => (expandP q).length)).sum := by
    intro l
    induction l with
    | nil => rfl
    | cons a t ih => simp [List.flatMap_cons, ih]
  rw [this]
  omega

theorem expandP_ne_nil (pr : List String × RenderParams) : expandP pr ≠ [] := by
  rw [expandP_unfold]
  simp

/-- The rendered-row budget of a work list: the total number of items its
full expansion holds. -/
theorem renderLoopP_full (startRow : Nat) (hs : startRow = 0) :
    ∀ (rem : Nat) (aps : List (List String × RenderParams)) (row : Nat),
      (aps.map (fun pr => (expandP pr).length)).sum ≤ rem →
      renderLoopP startRow aps rem row = aps.flatMap expandP := by
  subst hs
  intro rem
  induction rem with
  | zero =>
    intro aps row hle
    cases aps with
    | nil => rfl
    | cons pr rest =>
      exfalso
      have h1 : (expandP pr).length ≠ 0 := by
        simpa using expandP_ne_nil pr
      simp only [List.map_cons, List.sum_cons, Nat.le_zero] at hle
      omega
  | succ r ih =>
    intro aps row hle
    cases aps with
    | nil => rfl
    | cons pr rest =>
      simp only [renderLoopP, Nat.zero_le, if_pos, List.singleton_append]
      rw [ih (mkChildParamsP pr ++ rest) (row + 1) ?budget]
      case budget =>
        simp only [List.map_cons, List.sum_cons] at hle
        rw [expandP_length] at hle
        simp only [List.map_append, List.sum_append]
        omega
      rw [List.flatMap_cons, expandP_unfold, List.flatMap_append]
      simp

theorem countChildren_eq_sum (cs : List FileNode) :
    countChildren cs = (cs.map FileNode.count).sum := by
  induction cs with
  | nil => rfl
  | cons c rest ih => simp [countChildren, ih]

theorem FileNode.count_pos (n : FileNode) : 1 ≤ n.count := by
  cases n with
  | mk nm d cs => simp [FileNode.count]

theorem mkChildParamsAux_nodes_sublist (b : Bool) (pcs : List Bool) (tot : Nat) :
    ∀ (cs : List FileNode) (idx : Nat),
      ((mkChildParamsAux b pcs tot idx cs).map (fun q => q.node)).Sublist cs := by
  intro cs
  induction cs with
  | nil => intro idx; simp [mkChildParamsAux]
  | cons c rest ih =>
    intro idx
    by_cases hc : (c.data.viewInfo.hidden || b) = true
    · simp only [mkChildParamsAux, hc, if_pos rfl, List.nil_append]
      exact (ih (idx + 1)).cons c
    · simp only [mkChildParamsAux, hc, if_false, List.cons_append, List.nil_append,
        List.map_cons]
      exact (ih (idx + 1)).cons₂ c

theorem mkChildParams_node_mem {p : RenderParams} {q : RenderParams}
    (h : q ∈ mkChildParams p) : q.node ∈ p.node.children := by
  have hsub := mkChildParamsAux_nodes_sublist p.node.data.viewInfo.collapsed p.childSpaces
    p.node.children.length p.node.children 0
  exact hsub.subset (List.mem_map_of_mem _ h)

theorem mkChildParamsAux_count_le (b : Bool) (pcs : List Bool) (tot : Nat) :
    ∀ (cs : List FileNode) (idx : Nat),
      ((mkChildParamsAux b pcs tot idx cs).map (fun q => q.node.count)).sum ≤
        countChildren cs := by
  intro cs
  induction cs with
  | nil => intro idx; simp [mkChildParamsAux]
  | cons c rest ih =>
    intro idx
    by_cases hc : (c.data.viewInfo.hidden || b) = true
    · simp only [mkChildParamsAux, hc, if_pos rfl, List.nil_append, countChildren]
      exact Nat.le_trans (ih (idx + 1)) (Nat.le_add_left _ _)
    · simp only [mkChildParamsAux, hc, if_false, List.cons_append, List.nil_append,
        List.map_cons, List.sum_cons, countChildren]
      exact Nat.add_le_add (Nat.le_refl _) (ih (idx + 1))

theorem expandP_length_le (k : Nat) :
    ∀ pr : List String × RenderParams, pr.2.node.count ≤ k →
      (expandP pr).length ≤ pr.2.node.count := by
  induction k with
  | zero =>
    intro pr hle
    exact absurd (Nat.le_trans (FileNode.count_pos pr.2.node) hle) (by simp)
  | succ k ih =>
    intro pr hle
    rw [expandP_length]
    have hsum : ((mkChildParamsP pr).map (fun q => (expandP q).length)).sum ≤
        ((mkChildParamsP pr).map (fun q => q.2.node.count)).sum := by
      apply List.sum_le_sum
      intro q hq
      apply ih
      have hmem : q.2.node ∈ pr.2.node.children := by
        rw [mkChildParamsP, List.mem_map] at hq
        obtain ⟨q0, hq0, hq0eq⟩ := hq
        rw [← hq0eq]
        exact mkChildParams_node_mem hq0
      have h1 : q.2.node.count ≤ countChildren pr.2.node.children := by
        rw [countChildren_eq_sum]
        exact List.single_le_sum (by simp) _ (List.mem_map_of_mem _ hmem)
      have h2 : countChildren pr.2.node.children + 1 = pr.2.node.count := by
        cases hn : pr.2.node with
        | mk nm d cs => simp [FileNode.count, FileNode.children]; omega
      omega
    have hkids : ((mkChildParamsP pr).map (fun q => q.2.node.count)).sum ≤
        countChildren pr.2.node.children := by
      rw [mkChildParamsP, List.map_map]
      exact mkChildParamsAux_count_le _ _ _ _ _
    have h2 : countChildren pr.2.node.children + 1 = pr.2.node.count := by
      cases hn : pr.2.node with
      | mk nm d cs => simp [FileNode.count, FileNode.children]; omega
    omega

theorem renderedRows_eq_flatMap (t : FileTree) (hsize : t.Root.count = t.Size + 1) :
    renderedRows t = (mkChildParamsP ([], rootRenderParams t)).flatMap expandP := by
  rw [renderedRows]
  apply renderLoopP_full 0 rfl
  have h1 : ((mkChildParamsP ([], rootRenderParams t)).map
      (fun pr => (expandP pr).length)).sum ≤
      ((mkChildParamsP ([], rootRenderParams t)).map (fun q => q.2.node.count)).sum := by
    apply List.sum_le_sum
    intro q hq
    exact expandP_length_le q.2.node.count q (Nat.le_refl _)
  have h2 : ((mkChildParamsP ([], rootRenderParams t)).map
      (fun q => q.2.node.count)).sum ≤ countChildren t.Root.children := by
    rw [mkChildParamsP, List.map_map]
    exact mkChildParamsAux_count_le _ _ _ _ _
  have h3 : countChildren t.Root.children + 1 = t.Root.count := by
    cases hn : t.Root with
    | mk nm d cs => simp [FileNode.count, FileNode.children]; omega
  omega

theorem nameFresh_mem {cs : List FileNode} {s : String} {c : FileNode}
    (hf : nameFresh s cs = true) (hm : c ∈ cs) : ¬(c.name = s) := by
  induction cs with
  | nil => simp at hm
  | cons d rest ih =>
    simp only [nameFresh, Bool.and_eq_true] at hf
    rcases List.mem_cons.mp hm with hm | hm
    · rw [hm]; simpa using hf.1
    · exact ih hf.2 hm

theorem lookupChild_of_mem {cs : List FileNode} {c : FileNode}
    (hm : c ∈ cs) (hu : uniqueKids cs = true) : lookupChild cs c.name = some c := by
  induction cs with
  | nil => simp at hm
  | cons d rest ih =>
    simp only [uniqueKids, Bool.and_eq_true] at hu
    rcases List.mem_cons.mp hm with hm | hm
    · rw [hm, lookupChild, if_pos rfl]
    · have hne : ¬(c.name = d.name) := nameFresh_mem hu.1.1 hm
      rw [lookupChild, if_neg (fun hc => hne hc.symm)]
      exact ih hm hu.2

theorem mkChildParamsAux_mem_fields {b : Bool} {pcs : List Bool} {tot : Nat} :
    ∀ {cs : List FileNode} {idx : Nat} {q : RenderParams},
      q ∈ mkChildParamsAux b pcs tot idx cs →
      q.node ∈ cs ∧ q.node.data.viewInfo.hidden = false ∧ b = false ∧
        q.showCollapsed = (q.node.data.viewInfo.collapsed && !q.node.children.isEmpty) ∧
        q.spaces = pcs := by
  intro cs
  induction cs with
  | nil => intro idx q hq; simp [mkChildParamsAux] at hq
  | cons c rest ih =>
    intro idx q hq
    by_cases hc : (c.data.viewInfo.hidden || b) = true
    · simp only [mkChildParamsAux, hc, if_pos rfl, List.nil_append] at hq
      obtain ⟨h1, h2, h3, h4, h5⟩ := ih hq
      exact ⟨List.mem_cons_of_mem _ h1, h2, h3, h4, h5⟩
    · simp only [mkChildParamsAux, hc, Bool.false_eq_true, if_false, List.cons_append,
        List.nil_append, List.mem_cons] at hq
      rcases hq with h | hmem
      · subst h
        simp only [Bool.or_eq_true, not_or, Bool.not_eq_true] at hc
        exact ⟨List.mem_cons_self _ _, hc.1, hc.2, rfl, rfl⟩
      · obtain ⟨h1, h2, h3, h4, h5⟩ := ih hmem
        exact ⟨List.mem_cons_of_mem _ h1, h2, h3, h4, h5⟩

theorem mkChildParamsAux_mem_of_node {b : Bool} {pcs : List Bool} {tot : Nat} :
    ∀ {cs : List FileNode} (idx : Nat) {c : FileNode},
      c ∈ cs → c.data.viewInfo.hidden = false → b = false →
      ∃ q ∈ mkChildParamsAux b pcs tot idx cs, q.node = c := by
  intro cs
  induction cs with
  | nil => intro idx c hm; simp at hm
  | cons d rest ih =>
    intro idx c hm hh hb
    subst hb
    rcases List.mem_cons.mp hm with hm | hm
    · subst hm
      simp only [mkChildParamsAux, hh, Bool.or_false, if_neg (by simp : ¬(false = true)),
        List.cons_append, List.nil_append]
      exact ⟨_, List.mem_cons_self _ _, rfl⟩
    · obtain ⟨q, hq, hqn⟩ := ih (idx + 1) hm hh rfl
      by_cases hd : (d.data.viewInfo.hidden || false) = true
      · simp only [mkChildParamsAux, hd, if_pos rfl, List.nil_append]
        exact ⟨q, hq, hqn⟩
      · simp only [mkChildParamsAux, hd, if_false, List.cons_append, List.nil_append]
        exact ⟨q, List.mem_cons_of_mem _ hq, hqn⟩

theorem visible_mem_expandP (rest : List String) :
    ∀ (p : RenderParams) (π : List String), visiblePath p.node rest = true →
      ∃ q, (π ++ rest, q) ∈ expandP (π, p) := by
  induction rest with
  | nil =>
    intro p π _
    refine ⟨p, ?_⟩
    rw [expandP_unfold, List.append_nil]
    exact List.mem_cons_self _ _
  | cons s rest2 ih =>
    intro p π hv
    rw [visiblePath] at hv
    cases hlk : lookupChild p.node.children s with
    | none => rw [hlk] at hv; simp at hv
    | some c =>
      rw [hlk] at hv
      simp only [Bool.and_eq_true, Bool.not_eq_true'] at hv
      obtain ⟨⟨hch, hpc⟩, hvrest⟩ := hv
      obtain ⟨q0, hq0, hq0n⟩ := mkChildParamsAux_mem_of_node 0
        (lookupChild_mem hlk) hch hpc
      obtain ⟨q, hq⟩ := ih q0 (π ++ [s]) (by rw [hq0n]; exact hvrest)
      refine ⟨q, ?_⟩
      rw [expandP_unfold]
      apply List.mem_cons_of_mem
      rw [List.mem_flatMap]
      refine ⟨(π ++ [q0.node.name], q0), ?_, ?_⟩
      · rw [mkChildParamsP]
        exact List.mem_map_of_mem _ hq0
      · have hname : q0.node.name = s := by rw [hq0n]; exact lookupChild_name hlk
        rw [hname]
        have : π ++ s :: rest2 = (π ++ [s]) ++ rest2 := by simp
        rw [this]
        exact hq

theorem mem_children_count_lt {c n : FileNode} (hm : c ∈ n.children) : c.count < n.count := by
  cases n with
  | mk nm d cs =>
    simp only [FileNode.children] at hm
    have h1 : c.count ≤ countChildren cs := by
      rw [countChildren_eq_sum]
      exact List.single_le_sum (by simp) _ (List.mem_map_of_mem _ hm)
    simp only [FileNode.count]
    omega

theorem uniqueKids_names_nodup {cs : List FileNode} (hu : uniqueKids cs = true) :
    (cs.map FileNode.name).Nodup := by
  induction cs with
  | nil => simp
  | cons d rest ih =>
    simp only [uniqueKids, Bool.and_eq_true] at hu
    obtain ⟨⟨hf, _⟩, hk⟩ := hu
    rw [List.map_cons, List.nodup_cons]
    refine ⟨?_, ih hk⟩
    intro hmem
    rw [List.mem_map] at hmem
    obtain ⟨c, hc, hcn⟩ := hmem
    exact nameFresh_mem hf hc hcn

theorem mkChildParams_names_nodup {p : RenderParams}
    (hu : uniqueKids p.node.children = true) :
    ((mkChildParams p).map (fun q => q.node.name)).Nodup := by
  have h1 : (mkChildParams p).map (fun q => q.node.name) =
      ((mkChildParams p).map (fun q => q.node)).map FileNode.name := by
    rw [List.map_map]; rfl
  rw [h1]
  have hsub : (((mkChildParams p).map (fun q => q.node)).map FileNode.name).Sublist
      (p.node.children.map FileNode.name) :=
    (mkChildParamsAux_nodes_sublist _ _ _ _ _).map FileNode.name
  exact (uniqueKids_names_nodup hu).sublist hsub

/-- Soundness of the expansion: every item of `expandP (π, p)` sits at
`π ++ rest` for a visible relative path `rest` of `p.node`; a non-empty
`rest` resolves (by `getSegs`) to the item's own node, whose
`showCollapsed` flag is the collapsed-with-children formula of the child
loop. -/
theorem mem_expandP_char (k : Nat) :
    ∀ (p : RenderParams) (π π' : List String) (q : RenderParams),
      p.node.count ≤ k → uniqueNode p.node = true →
      (π', q) ∈ expandP (π, p) →
      ∃ rest, π' = π ++ rest ∧ visiblePath p.node rest = true ∧
        ((rest = [] ∧ q = p) ∨
          (rest ≠ [] ∧ getSegs p.node rest = some q.node ∧
            q.showCollapsed = (q.node.data.viewInfo.collapsed && !q.node.children.isEmpty))) := by
  induction k with
  | zero =>
    intro p π π' q hle _ _
    exact absurd (Nat.le_trans (FileNode.count_pos p.node) hle) (by simp)
  | succ k ih =>
    intro p π π' q hle hu hmem
    rw [expandP_unfold] at hmem
    rcases List.mem_cons.mp hmem with h | h
    · have h1 : π' = π := congrArg Prod.fst h
      have h2 : q = p := congrArg Prod.snd h
      exact ⟨[], by simpa using h1, rfl, Or.inl ⟨rfl, h2⟩⟩
    · rw [List.mem_flatMap] at h
      obtain ⟨pr0, hpr0, hmem0⟩ := h
      rw [mkChildParamsP, List.mem_map] at hpr0
      obtain ⟨q0, hq0, hpr0eq⟩ := hpr0
      rw [← hpr0eq] at hmem0
      rw [mkChildParams] at hq0
      obtain ⟨hmemc, hhid, hcol, hsc, _⟩ := mkChildParamsAux_mem_fields hq0
      have hcnt : q0.node.count ≤ k := by
        have hlt : q0.node.count < p.node.count := mem_children_count_lt hmemc
        omega
      have huk : uniqueKids p.node.children = true := by
        rw [← uniqueNode_children]; exact hu
      have huc : uniqueNode q0.node = true := uniqueKids_mem_uniqueNode huk hmemc
      obtain ⟨rest2, hπ, hvis, hcase⟩ := ih q0 (π ++ [q0.node.name]) π' q hcnt huc hmem0
      have hlk : lookupChild p.node.children q0.node.name = some q0.node :=
        lookupChild_of_mem hmemc huk
      refine ⟨q0.node.name :: rest2, by rw [hπ]; simp, ?_, ?_⟩
      · rw [visiblePath, hlk]
        simp [hhid, hcol, hvis]
      · refine Or.inr ⟨by simp, ?_, ?_⟩
        · rw [getSegs, hlk]
          rcases hcase with ⟨hrest, hqp⟩ | ⟨_, hgs, _⟩
          · subst hrest; subst hqp; rfl
          · exact hgs
        · rcases hcase with ⟨_, hqp⟩ | ⟨_, _, hscq⟩
          · subst hqp; exact hsc
          · exact hscq

/-- The segment chains of an expansion are pairwise distinct: distinct
sibling names (the Go map invariant) keep distinct child cones on
disjoint path prefixes. -/
theorem expandP_paths_nodup (k : Nat) :
    ∀ (p : RenderParams) (π : List String), p.node.count ≤ k → uniqueNode p.node = true →
      ((expandP (π, p)).map Prod.fst).Nodup := by
  induction k with
  | zero =>
    intro p π hle _
    exact absurd (Nat.le_trans (FileNode.count_pos p.node) hle) (by simp)
  | succ k ih =>
    intro p π hle hu
    have hprefix : ∀ (q0 : RenderParams) (π0 x : List String), uniqueNode q0.node = true →
        x ∈ (expandP (π0, q0)).map Prod.fst → π0 <+: x := by
      intro q0 π0 x hu0 hx
      rw [List.mem_map] at hx
      obtain ⟨pr, hpr, hfst⟩ := hx
      obtain ⟨rest, hx', _, _⟩ := mem_expandP_char q0.node.count q0 π0 pr.1 pr.2
        (Nat.le_refl _) hu0 hpr
      rw [← hfst, hx']
      exact List.prefix_append _ _
    have huk : uniqueKids p.node.children = true := by
      rw [← uniqueNode_children]; exact hu
    rw [expandP_unfold, List.map_cons, List.nodup_cons]
    constructor
    · intro hx
      rw [List.mem_map] at hx
      obtain ⟨pr, hpr, hfst⟩ := hx
      rw [List.mem_flatMap] at hpr
      obtain ⟨pr0, hpr0, hmem0⟩ := hpr
      rw [mkChildParamsP, List.mem_map] at hpr0
      obtain ⟨q0, hq0, hpr0eq⟩ := hpr0
      rw [← hpr0eq] at hmem0
      rw [mkChildParams] at hq0
      have hmemc := (mkChildParamsAux_mem_fields hq0).1
      have huc := uniqueKids_mem_uniqueNode huk hmemc
      have hπmem : π ∈ (expandP (π ++ [q0.node.name], q0)).map Prod.fst :=
        List.mem_map.mpr ⟨pr, hmem0, hfst⟩
      have hpfx := hprefix q0 (π ++ [q0.node.name]) π huc hπmem
      have hlen := hpfx.length_le
      simp at hlen
    · have hgen : ∀ (cs0 : List RenderParams),
          (∀ q0 ∈ cs0, q0.node ∈ p.node.children) →
          (cs0.map (fun q0 => q0.node.name)).Nodup →
          (((cs0.map (fun q0 => (π ++ [q0.node.name], q0))).flatMap expandP).map
            Prod.fst).Nodup := by
        intro cs0
        induction cs0 with
        | nil => intro _ _; simp
        | cons q0 rest ihc =>
          intro hmemch hnn
          rw [List.map_cons, List.flatMap_cons, List.map_append, List.nodup_append]
          have hq0mem : q0.node ∈ p.node.children := hmemch q0 (List.mem_cons_self _ _)
          have hq0cnt : q0.node.count ≤ k := by
            have := mem_children_count_lt hq0mem; omega
          have hq0u : uniqueNode q0.node = true := uniqueKids_mem_uniqueNode huk hq0mem
          rw [List.map_cons, List.nodup_cons] at hnn
          refine ⟨ih q0 (π ++ [q0.node.name]) hq0cnt hq0u,
            ihc (fun q hq => hmemch q (List.mem_cons_of_mem _ hq)) hnn.2, ?_⟩
          intro x hx1 hx2
          have hpfx1 : (π ++ [q0.node.name]) <+: x := hprefix q0 _ x hq0u hx1
          rw [List.mem_map] at hx2
          obtain ⟨pr, hpr, hfst⟩ := hx2
          rw [List.mem_flatMap] at hpr
          obtain ⟨pr1, hpr1, hmem1⟩ := hpr
          rw [List.mem_map] at hpr1
          obtain ⟨q1, hq1, hpr1eq⟩ := hpr1
          rw [← hpr1eq] at hmem1
          have hq1mem : q1.node ∈ p.node.children := hmemch q1 (List.mem_cons_of_mem _ hq1)
          have hq1u : uniqueNode q1.node = true := uniqueKids_mem_uniqueNode huk hq1mem
          have hpfx2 : (π ++ [q1.node.name]) <+: x := by
            apply hprefix q1 _ x hq1u
            exact List.mem_map.mpr ⟨pr, hmem1, hfst⟩
          have hlen : (π ++ [q0.node.name]).length = (π ++ [q1.node.name]).length := by simp
          have heq : π ++ [q0.node.name] = π ++ [q1.node.name] :=
            List.IsPrefix.eq_of_length
              (List.prefix_of_prefix_length_le hpfx1 hpfx2 (Nat.le_of_eq hlen)) hlen
          have hname : q0.node.name = q1.node.name := by
            have h2 := List.append_cancel_left heq
            simpa using h2
          exact hnn.1 (List.mem_map.mpr ⟨q1, hq1, hname.symm⟩)
      have h := hgen (mkChildParams p) (fun q0 hq0 => mkChildParams_node_mem hq0)
        (mkChildParams_names_nodup huk)
      rw [mkChildParamsP]
      exact h

/-- A collapsed node cuts visibility: no strictly longer chain through it
is visible. -/
theorem visiblePath_collapsed_block (π : List String) :
    ∀ (r n : FileNode), getSegs r π = some n → n.data.viewInfo.collapsed = true →
      ∀ (s : String) (rest : List String), visiblePath r (π ++ s :: rest) = false := by
  induction π with
  | nil =>
    intro r n hg hc s rest
    rw [getSegs] at hg
    have hrn : r = n := by injection hg
    subst hrn
    rw [List.nil_append, visiblePath]
    cases hlk : lookupChild r.children s with
    | none => rfl
    | some c => simp [hc]
  | cons a π2 ihp =>
    intro r n hg hc s rest
    rw [getSegs] at hg
    cases hlk : lookupChild r.children a with
    | none => rw [hlk] at hg; simp at hg
    | some c =>
      rw [hlk] at hg
      rw [List.cons_append, visiblePath, hlk]
      have hblock := ihp c n hg hc s rest
      simp [hblock]

theorem noFlagsKids_mem {cs : List FileNode} {c : FileNode}
    (h : noFlagsKids cs = true) (hm : c ∈ cs) : noFlagsNode c = true := by
  induction cs with
  | nil => simp at hm
  | cons d rest ih =>
    simp only [noFlagsKids, Bool.and_eq_true] at h
    rcases List.mem_cons.mp hm with hm | hm
    · rw [hm]; exact h.1
    · exact ih h.2 hm

theorem noFlagsNode_parts {n : FileNode} (h : noFlagsNode n = true) :
    n.data.viewInfo.hidden = false ∧ n.data.viewInfo.collapsed = false ∧
      noFlagsKids n.children = true := by
  cases n with
  | mk nm d cs =>
    simp only [noFlagsNode, Bool.and_eq_true, Bool.not_eq_true'] at h
    exact ⟨h.1.1, h.1.2, h.2⟩

theorem mkChildParamsAux_nodes_all (pcs : List Bool) (tot : Nat) :
    ∀ (cs : List FileNode) (idx : Nat), (∀ c ∈ cs, c.data.viewInfo.hidden = false) →
      (mkChildParamsAux false pcs tot idx cs).map (fun q => q.node) = cs := by
  intro cs
  induction cs with
  | nil => intro idx _; rfl
  | cons c rest ihc =>
    intro idx hall
    have hc : c.data.viewInfo.hidden = false := hall c (List.mem_cons_self _ _)
    simp only [mkChildParamsAux, hc, Bool.or_self, Bool.false_eq_true, if_false,
      List.cons_append, List.nil_append, List.map_cons]
    rw [ihc (idx + 1) (fun c2 hc2 => hall c2 (List.mem_cons_of_mem _ hc2))]

/-- With no hidden or collapsed flag anywhere in the subtree, the
expansion of a work item holds exactly one row per subtree node. -/
theorem expandP_length_noFlags (k : Nat) :
    ∀ (pr : List String × RenderParams), pr.2.node.count ≤ k →
      noFlagsNode pr.2.node = true → (expandP pr).length = pr.2.node.count := by
  induction k with
  | zero =>
    intro pr hle _
    exact absurd (Nat.le_trans (FileNode.count_pos pr.2.node) hle) (by simp)
  | succ k ih =>
    intro pr hle hnf
    obtain ⟨hhid, hcol, hkids⟩ := noFlagsNode_parts hnf
    rw [expandP_length]
    have hmap : (mkChildParamsP pr).map (fun q => (expandP q).length) =
        (mkChildParams pr.2).map (fun q0 => (expandP (pr.1 ++ [q0.node.name], q0)).length) := by
      rw [mkChildParamsP, List.map_map]; rfl
    have hcongr : ∀ q0 ∈ mkChildParams pr.2,
        (expandP (pr.1 ++ [q0.node.name], q0)).length = q0.node.count := by
      intro q0 hq0
      have hmem : q0.node ∈ pr.2.node.children := mkChildParams_node_mem hq0
      have h1 : q0.node.count ≤ k := by
        have hlt : q0.node.count < pr.2.node.count := mem_children_count_lt hmem
        omega
      exact ih _ h1 (noFlagsKids_mem hkids hmem)
    have hpt : (mkChildParams pr.2).map
          (fun q0 => (expandP (pr.1 ++ [q0.node.name], q0)).length) =
        (mkChildParams pr.2).map (fun q0 => q0.node.count) :=
      List.map_congr_left hcongr
    have hnodes : (mkChildParams pr.2).map (fun q0 => q0.node) = pr.2.node.children := by
      rw [mkChildParams, hcol]
      apply mkChildParamsAux_nodes_all
      intro c hc
      exact (noFlagsNode_parts (noFlagsKids_mem hkids hc)).1
    have hsum : ((mkChildParams pr.2).map (fun q0 => q0.node.count)).sum =
        countChildren pr.2.node.children := by
      rw [countChildren_eq_sum, ← hnodes, List.map_map]
      rfl
    rw [hmap, hpt, hsum]
    cases hn : pr.2.node with
    | mk nm d cs => simp [FileNode.count, FileNode.children]

/-- Soundness of `renderedRows`: every emitted row's chain is a visible
path of the tree resolving to the row's node, with the collapsed-glyph
flag exactly when that node is collapsed with children. -/
theorem renderedRows_mem_char {t : FileTree} (hsize : t.Root.count = t.Size + 1)
    (huniq : uniqueNode t.Root = true) {π : List String} {q : RenderParams}
    (h : (π, q) ∈ renderedRows t) :
    visiblePath t.Root π = true ∧
      ((π = [] ∧ q = rootRenderParams t) ∨
        (π ≠ [] ∧ getSegs t.Root π = some q.node ∧
          q.showCollapsed = (q.node.data.viewInfo.collapsed && !q.node.children.isEmpty))) := by
  rw [renderedRows_eq_flatMap t hsize] at h
  have h2 : (π, q) ∈ expandP ([], rootRenderParams t) := by
    rw [expandP_unfold]; exact List.mem_cons_of_mem _ h
  obtain ⟨rest, hπ, hvis, hcase⟩ := mem_expandP_char (rootRenderParams t).node.count
    (rootRenderParams t) [] π q (Nat.le_refl _) huniq h2
  rw [List.nil_append] at hπ
  subst hπ
  exact ⟨hvis, hcase⟩

/-- Completeness of `renderedRows`: every non-empty visible path of the
tree is emitted. -/
theorem renderedRows_mem_complete {t : FileTree} (hsize : t.Root.count = t.Size + 1)
    {π : List String} (hne : π ≠ []) (hvis : visiblePath t.Root π = true) :
    ∃ q, (π, q) ∈ renderedRows t := by
  obtain ⟨q, hq⟩ := visible_mem_expandP π (rootRenderParams t) [] hvis
  rw [List.nil_append] at hq
  rw [expandP_unfold] at hq
  rcases List.mem_cons.mp hq with h | h
  · exact absurd (congrArg Prod.fst h) (by simpa using hne)
  · rw [renderedRows_eq_flatMap t hsize]
    exact ⟨q, h⟩

theorem count_one_of_nodup_mem {l : List (List String)} {a : List String}
    (hn : l.Nodup) (hm : a ∈ l) : l.count a = 1 := by
  have hinst : (List.instBEq : BEq (List String)) = instBEqOfDecidableEq :=
    lawful_beq_subsingleton _ _
  rw [hinst]
  exact List.count_eq_one_of_mem hn hm

theorem renderedRows_paths_nodup {t : FileTree} (hsize : t.Root.count = t.Size + 1)
    (huniq : uniqueNode t.Root = true) : ((renderedRows t).map Prod.fst).Nodup := by
  have h := expandP_paths_nodup (rootRenderParams t).node.count (rootRenderParams t) []
    (Nat.le_refl _) huniq
  rw [expandP_unfold, List.map_cons, List.nodup_cons] at h
  rw [renderedRows_eq_flatMap t hsize]
  exact h.2

/-! ## Claim C8 -/

/-- C8 counterexample: the claim quantifies over every node with
children whose `Collapsed` flag is set, but the render loop never
processes the root node ("never process the root node", tree.go line
107).  A tree whose root is collapsed (and has a child) therefore
renders as the empty string: zero rows are emitted for the collapsed
node itself, not exactly one. -/
theorem c8_counterexample_collapsed_root :
    FileTree.String
        { Root := FileNode.mk "" { viewInfo := { collapsed := true } }
            [FileNode.mk "a" {} []],
          Size := 1, FileSize := 0 } false = "" ∧
    (FileNode.mk "" { viewInfo := { collapsed := true } }
        [FileNode.mk "a" {} []]).data.viewInfo.collapsed = true ∧
    (FileNode.mk "" { viewInfo := { collapsed := true } }
        [FileNode.mk "a" {} []]).children ≠ [] := by
  refine ⟨rfl, rfl, by decide⟩

/-- C8 (amended to non-root nodes): on a full-window render (`String`)
of a tree with distinct sibling names (the Go map invariant) and an
accurate `Size`, (i) the emitted rows are exactly `renderedRows`;
(ii) every non-root node at a *visible* chain `π` that is collapsed with
children occupies exactly one row, that row carries the collapsed-glyph
flag, and every strictly longer chain through it occupies zero rows;
(iii) a chain that is not visible (hidden node or collapsed ancestor on
the way) occupies zero rows; (iv) with every flag clear the row count is
exactly `Size`, one row per non-root node. -/
theorem c8_collapsed_renders_one_row (t : FileTree)
    (huniq : uniqueNode t.Root = true) (hsize : t.Root.count = t.Size + 1) :
    t.String false = renderResult ((renderedRows t).map Prod.snd) false ∧
    (∀ (π : List String) (n : FileNode), π ≠ [] → getSegs t.Root π = some n →
      visiblePath t.Root π = true → n.data.viewInfo.collapsed = true → n.children ≠ [] →
      ((renderedRows t).map Prod.fst).count π = 1 ∧
        (∀ pr ∈ renderedRows t, pr.1 = π → pr.2.node = n ∧ pr.2.showCollapsed = true) ∧
        (∀ π2, π <+: π2 → π ≠ π2 → ((renderedRows t).map Prod.fst).count π2 = 0)) ∧
    (∀ π : List String, visiblePath t.Root π = false →
      ((renderedRows t).map Prod.fst).count π = 0) ∧
    (noFlagsNode t.Root = true → (renderedRows t).length = t.Size) := by
  have hnodup := renderedRows_paths_nodup hsize huniq
  have hzero : ∀ π : List String, visiblePath t.Root π = false →
      ((renderedRows t).map Prod.fst).count π = 0 := by
    intro π hinv
    rw [List.count_eq_zero]
    intro hmem
    rw [List.mem_map] at hmem
    obtain ⟨pr, hpr, hfst⟩ := hmem
    have hvis := (renderedRows_mem_char hsize huniq hpr).1
    rw [hfst] at hvis
    rw [hvis] at hinv
    simp at hinv
  refine ⟨?_, ?_, hzero, ?_⟩
  · rw [renderedRows, renderLoopP_map_snd, mkChildParamsP_map_snd]
    rfl
  · intro π n hne hgs hvis hcol hch
    obtain ⟨q, hq⟩ := renderedRows_mem_complete hsize hne hvis
    have hmemfst : π ∈ (renderedRows t).map Prod.fst := List.mem_map.mpr ⟨(π, q), hq, rfl⟩
    have hparams : ∀ pr ∈ renderedRows t, pr.1 = π →
        pr.2.node = n ∧ pr.2.showCollapsed = true := by
      intro pr hpr hfst
      have hchar := renderedRows_mem_char hsize huniq hpr
      rcases hchar.2 with ⟨hnil, _⟩ | ⟨_, hgs2, hsc⟩
      · rw [hfst] at hnil; exact absurd hnil hne
      · rw [hfst] at hgs2
        have hnode : pr.2.node = n := Option.some.inj (hgs2.symm.trans hgs)
        refine ⟨hnode, ?_⟩
        rw [hsc, hnode]
        have hemp : n.children.isEmpty = false := by
          cases hc2 : n.children with
          | nil => exact absurd hc2 hch
          | cons a l => rfl
        rw [hcol, hemp]
        rfl
    refine ⟨count_one_of_nodup_mem hnodup hmemfst, hparams, ?_⟩
    intro π2 hpfx hnee
    obtain ⟨rest2, hrest2⟩ := hpfx
    cases rest2 with
    | nil =>
      rw [List.append_nil] at hrest2
      exact absurd hrest2 hnee
    | cons s rest3 =>
      apply hzero
      rw [← hrest2]
      exact visiblePath_collapsed_block π t.Root n hgs hcol s rest3
  · intro hnf
    rw [renderedRows_eq_flatMap t hsize]
    have h1 := expandP_length_noFlags (rootRenderParams t).node.count
      ([], rootRenderParams t) (Nat.le_refl _) hnf
    rw [expandP_unfold] at h1
    simp only [List.length_cons] at h1
    have h3 : (rootRenderParams t).node.count = t.Size + 1 := hsize
    omega

/-- C8 witness: in the tree `{/a (collapsed), /a/b, /x}` the collapsed
node `/a` occupies exactly one row and its child chain `a/b` occupies
none. -/
theorem c8_collapsed_renders_one_row_witness :
    (let t : FileTree :=
      { Root := FileNode.mk "" {}
          [FileNode.mk "a" { viewInfo := { collapsed := true } } [FileNode.mk "b" {} []],
           FileNode.mk "x" {} []],
        Size := 3, FileSize := 0 }
     ((renderedRows t).map Prod.fst).count ["a"] = 1 ∧
       ((renderedRows t).map Prod.fst).count ["a", "b"] = 0) := by
  have happ := (c8_collapsed_renders_one_row
      { Root := FileNode.mk "" {}
          [FileNode.mk "a" { viewInfo := { collapsed := true } } [FileNode.mk "b" {} []],
           FileNode.mk "x" {} []],
        Size := 3, FileSize := 0 } (by decide) (by decide)).2.1 ["a"]
      (FileNode.mk "a" { viewInfo := { collapsed := true } } [FileNode.mk "b" {} []])
      (by decide) (by decide) (by decide) (by decide) (by decide)
  exact ⟨happ.1, happ.2.2 ["a", "b"] (by decide) (by decide)⟩

